import Mathlib

/-!
# Zopfli match extension (`simd.h`) and profiling counters (`profile.h`)

A shallow embedding of the three build variants of `GetMatch_SIMD` (NEON, SSE2 and the
scalar fallback) over a byte-addressed memory, and of the `PROFILE_START` / `PROFILE_END`
counter updates and the values computed by `PROFILE_PRINT`, followed by the properties
established for them.

Pointers are natural-number addresses.  A load from an address that is not readable is
undefined behaviour in C; here it makes the whole computation return `none`.
-/

namespace Zopfli

/-! ## Memory and loads -/

/-- An `unsigned char`. -/
abbrev Byte := Fin 256

/-- Byte-addressed memory: `mem a` is the byte stored at address `a`, or `none` when the
address is not readable. -/
abbrev Mem := Nat → Option Byte

/-- A finite buffer placed at address 0: readable exactly at the addresses below its length. -/
def bufMem (buf : List Byte) : Mem := fun a => buf[a]?

/-- The `n` bytes stored at `p, p+1, ..., p+n-1`; `none` when one of them is not readable. -/
def loadBytes (mem : Mem) (p : Nat) : Nat → Option (List Byte)
  | 0 => some []
  | n + 1 =>
    match mem p, loadBytes mem (p + 1) n with
    | some b, some bs => some (b :: bs)
    | _, _ => none

/-- Value of a byte string read as one little-endian unsigned integer. -/
def leValue : List Byte → Nat
  | [] => 0
  | b :: bs => b.val + 256 * leValue bs

/-- The unaligned 64-bit load `*((const uint64_t*)p)`. -/
def load_u64 (mem : Mem) (p : Nat) : Option Nat :=
  (loadBytes mem p 8).map leValue

/-! ## Vector primitives -/

/-- Lane-wise byte equality (`_mm_cmpeq_epi8`, `vceqq_u8`): `0xFF` where the two bytes are
equal, `0x00` where they differ. -/
def cmpeq_epi8 (a b : List Byte) : List Byte :=
  List.zipWith (fun x y => if x = y then (255 : Byte) else (0 : Byte)) a b

/-- The SSE2 `_mm_movemask_epi8`: bit `i` of the result is the top bit of byte `i`. -/
def movemask_epi8 : List Byte → Nat
  | [] => 0
  | b :: bs => b.val / 128 + 2 * movemask_epi8 bs

/-- The C expression `~mask` on a 32-bit `int`, read as the `unsigned int` that
`__builtin_ctz` receives. -/
def not32 (x : Nat) : Nat := 2 ^ 32 - 1 - x % 2 ^ 32

/-- Number of trailing zero bits among the lowest `w` bits. -/
def ctzBits : Nat → Nat → Nat
  | 0, _ => 0
  | w + 1, x => if x % 2 = 1 then 0 else 1 + ctzBits w (x / 2)

/-- The builtin `__builtin_ctz` on a 32-bit unsigned value; its result is undefined at 0. -/
def builtin_ctz (x : Nat) : Option Nat :=
  if x = 0 then none else some (ctzBits 32 x)

/-- The NEON `vgetq_lane_u64(vreinterpretq_u64_u8(v), 0)`: the low eight bytes as one word. -/
def lane_u64_0 (v : List Byte) : Nat := leValue (v.take 8)

/-- The NEON `vgetq_lane_u64(vreinterpretq_u64_u8(v), 1)`: the high eight bytes as one word. -/
def lane_u64_1 (v : List Byte) : Nat := leValue ((v.drop 8).take 8)

/-! ## The loops of `GetMatch_SIMD` -/

/-- The final loop of all three variants:
`while (scan < end && *scan == *match) { scan++; match++; } return scan;` -/
def byteLoop (mem : Mem) (end_ : Nat) (scan mtch : Nat) : Option Nat :=
  if _h : scan < end_ then
    match mem scan, mem mtch with
    | some a, some b =>
      if a = b then byteLoop mem end_ (scan + 1) (mtch + 1) else some scan
    | _, _ => none
  else some scan
termination_by end_ - scan
decreasing_by omega

/-- The 8-byte loop of the NEON and SSE2 variants, followed by the byte loop:
`while (scan + 8 <= safe_end) { if (word(scan) != word(match)) break; scan += 8; match += 8; }` -/
def loop8 (mem : Mem) (end_ safe_end : Nat) (scan mtch : Nat) : Option Nat :=
  if _h : scan + 8 ≤ safe_end then
    match load_u64 mem scan, load_u64 mem mtch with
    | some a, some b =>
      if a ≠ b then byteLoop mem end_ scan mtch
      else loop8 mem end_ safe_end (scan + 8) (mtch + 8)
    | _, _ => none
  else byteLoop mem end_ scan mtch
termination_by safe_end - scan
decreasing_by omega

namespace SSE2

/-- The SSE2 variant: the 16-byte loop, which returns `scan + ctz(~mask)` as soon as the
equality mask is not `0xFFFF`, then the 8-byte loop and the byte loop. -/
def GetMatch_SIMD (mem : Mem) (scan mtch end_ safe_end : Nat) : Option Nat :=
  if _h : scan + 16 ≤ safe_end then
    match loadBytes mem scan 16, loadBytes mem mtch 16 with
    | some v_scan, some v_match =>
      let v_cmp := cmpeq_epi8 v_scan v_match
      let mask := movemask_epi8 v_cmp
      if mask ≠ 0xFFFF then
        match builtin_ctz (not32 mask) with
        | some pos => some (scan + pos)
        | none => none
      else GetMatch_SIMD mem (scan + 16) (mtch + 16) end_ safe_end
    | _, _ => none
  else loop8 mem end_ safe_end scan mtch
termination_by safe_end - scan
decreasing_by omega

end SSE2

namespace NEON

/-- The inner loop `for (i = 0; i < 16; i++) if (scan[i] != match[i]) return scan + i;`
with `n` iterations left, at index `i`.  `some (some p)`: the function returns `p`;
`some none`: the loop ran to its end without returning. -/
def windowScan (mem : Mem) (scan mtch : Nat) : Nat → Nat → Option (Option Nat)
  | 0, _ => some none
  | n + 1, i =>
    match mem (scan + i), mem (mtch + i) with
    | some a, some b =>
      if a ≠ b then some (some (scan + i)) else windowScan mem scan mtch n (i + 1)
    | _, _ => none

/-- The NEON variant: the 16-byte loop, which scans the window byte by byte when the two
64-bit halves of the comparison are not both all ones, then the 8-byte loop and the byte
loop. -/
def GetMatch_SIMD (mem : Mem) (scan mtch end_ safe_end : Nat) : Option Nat :=
  if _h : scan + 16 ≤ safe_end then
    match loadBytes mem scan 16, loadBytes mem mtch 16 with
    | some v_scan, some v_match =>
      let v_cmp := cmpeq_epi8 v_scan v_match
      let low := lane_u64_0 v_cmp
      let high := lane_u64_1 v_cmp
      if low &&& high ≠ 0xFFFFFFFFFFFFFFFF then
        match windowScan mem scan mtch 16 0 with
        | some (some p) => some p
        | some none => GetMatch_SIMD mem (scan + 16) (mtch + 16) end_ safe_end
        | none => none
      else GetMatch_SIMD mem (scan + 16) (mtch + 16) end_ safe_end
    | _, _ => none
  else loop8 mem end_ safe_end scan mtch
termination_by safe_end - scan
decreasing_by all_goals omega

end NEON

namespace Scalar

/-- The scalar variant: the 8-byte loop
`while (scan < safe_end && word(scan) == word(match)) { scan += 8; match += 8; }`
followed by the byte loop. -/
def GetMatch_SIMD (mem : Mem) (scan mtch end_ safe_end : Nat) : Option Nat :=
  if _h : scan < safe_end then
    match load_u64 mem scan, load_u64 mem mtch with
    | some a, some b =>
      if a = b then GetMatch_SIMD mem (scan + 8) (mtch + 8) end_ safe_end
      else byteLoop mem end_ scan mtch
    | _, _ => none
  else byteLoop mem end_ scan mtch
termination_by safe_end - scan
decreasing_by omega

end Scalar

/-! ## Specification vocabulary -/

/-- The bytes of `[scan, end)` and their counterparts at `match` are all readable. -/
def Readable (mem : Mem) (scan mtch end_ : Nat) : Prop :=
  ∀ a < end_, scan ≤ a → (mem a).isSome ∧ (mem (mtch + (a - scan))).isSome

/-- The extension stops at position `p`: either `p` is `end`, or the byte at `p` differs
from the byte at `match + (p - scan)`. -/
def Diverges (mem : Mem) (scan mtch end_ p : Nat) : Prop :=
  p = end_ ∨ mem p ≠ mem (mtch + (p - scan))

/-- Position `p` is the smallest position at or after `scan` where the extension stops. -/
def IsFirstDivergence (mem : Mem) (scan mtch end_ p : Nat) : Prop :=
  scan ≤ p ∧ Diverges mem scan mtch end_ p ∧
    ∀ q < p, scan ≤ q → ¬ Diverges mem scan mtch end_ q

/-- Every 8-byte word that starts at `scan + 8 * j` below `safe_end` ends at or before
`end`. -/
def WordsFit (scan end_ safe_end : Nat) : Prop :=
  ∀ j < safe_end, scan + 8 * j < safe_end → scan + 8 * j + 8 ≤ end_

/-- Every 8-byte word the scalar loop loads before it meets a first difference at offset
`k`, that is every word starting at `scan + 8 * j` below `safe_end` with `8 * j ≤ k`, is
readable at `scan` and at `match`. -/
def ScalarWordsReadable (mem : Mem) (scan mtch safe_end k : Nat) : Prop :=
  ∀ j < safe_end, scan + 8 * j < safe_end → 8 * j ≤ k → ∀ i < 8,
    (mem (scan + 8 * j + i)).isSome ∧ (mem (mtch + 8 * j + i)).isSome

/-- The extension from `s` (against `m`) stops exactly at `p`: the bytes of `[s, p)` are
readable and equal to their counterparts, and `p` is `end` or holds a readable byte that
differs from its readable counterpart. -/
def StopsAt (mem : Mem) (s m end_ p : Nat) : Prop :=
  s ≤ p ∧ p ≤ end_ ∧
    (∀ i, s + i < p → ∃ b, mem (s + i) = some b ∧ mem (m + i) = some b) ∧
    (p = end_ ∨ ∃ x y, mem p = some x ∧ mem (m + (p - s)) = some y ∧ x ≠ y)

instance (mem : Mem) (scan mtch end_ : Nat) : Decidable (Readable mem scan mtch end_) := by
  unfold Readable; infer_instance

instance (mem : Mem) (scan mtch end_ p : Nat) : Decidable (Diverges mem scan mtch end_ p) := by
  unfold Diverges; infer_instance

instance (mem : Mem) (scan mtch end_ p : Nat) :
    Decidable (IsFirstDivergence mem scan mtch end_ p) := by
  unfold IsFirstDivergence; infer_instance

instance (scan end_ safe_end : Nat) : Decidable (WordsFit scan end_ safe_end) := by
  unfold WordsFit; infer_instance

instance (mem : Mem) (scan mtch safe_end k : Nat) :
    Decidable (ScalarWordsReadable mem scan mtch safe_end k) := by
  unfold ScalarWordsReadable; infer_instance

/-- The memory `mem` with every address made unreadable except the scan-side bytes of
`[scan, end)` and their match-side counterparts `[match, match + (end - scan))`. -/
def restrictMem (mem : Mem) (scan mtch end_ : Nat) : Mem := fun a =>
  if (scan ≤ a ∧ a < end_) ∨ (mtch ≤ a ∧ a < mtch + (end_ - scan)) then mem a else none

/-! ## Concrete inputs -/

/-- The buffer `"abcdefgh" ++ "abcXefgh"`. -/
def scenario : List Byte :=
  [97, 98, 99, 100, 101, 102, 103, 104, 97, 98, 99, 88, 101, 102, 103, 104]

/-- Sixteen bytes `'a'`. -/
def sixteenA : List Byte :=
  [97, 97, 97, 97, 97, 97, 97, 97, 97, 97, 97, 97, 97, 97, 97, 97]

/-- Twelve bytes `'a'`. -/
def twelveA : List Byte := [97, 97, 97, 97, 97, 97, 97, 97, 97, 97, 97, 97]

/-- Twelve bytes, all `'a'` except a `'b'` at offset 9. -/
def twelveAB : List Byte := [97, 97, 97, 97, 97, 97, 97, 97, 97, 98, 97, 97]

/-- Eighty bytes, all 0 except a 1 at offset 61. -/
def eightyBytes : List Byte := List.replicate 61 0 ++ 1 :: List.replicate 18 0

/-- A memory readable everywhere that holds 1 at address `d` and 0 at every other address. -/
def spikeMem (d : Nat) : Mem := fun a => some (if a = d then 1 else 0)

/-! ## Profiling counters (`profile.h`) -/

/-- Addition of `unsigned long long` values. -/
def add64 (a b : Nat) : Nat := (a + b) % 2 ^ 64

/-- Subtraction of `unsigned long long` values. -/
def sub64 (a b : Nat) : Nat := (a % 2 ^ 64 + 2 ^ 64 - b % 2 ^ 64) % 2 ^ 64

/-- The function `profile_get_time_us` applied to the `timeval` that `gettimeofday` filled
in: `tv_sec * 1000000ULL + tv_usec` as an `unsigned long long`. -/
def profile_get_time_us (tv_sec tv_usec : Int) : Nat :=
  ((tv_sec * 1000000 + tv_usec) % 2 ^ 64).toNat

/-- The three names the macros are instantiated with. -/
inductive Name where
  | getmatch
  | findlongest
  | hash
  deriving DecidableEq

/-- The six global counters. -/
structure Counters where
  profile_getmatch_calls : Nat
  profile_getmatch_time_us : Nat
  profile_findlongest_calls : Nat
  profile_findlongest_time_us : Nat
  profile_hash_calls : Nat
  profile_hash_time_us : Nat
  deriving DecidableEq

/-- The counters at program start. -/
def Counters.zero : Counters := ⟨0, 0, 0, 0, 0, 0⟩

/-- The counter `profile_<name>_calls`. -/
def Counters.calls (c : Counters) : Name → Nat
  | .getmatch => c.profile_getmatch_calls
  | .findlongest => c.profile_findlongest_calls
  | .hash => c.profile_hash_calls

/-- The counter `profile_<name>_time_us`. -/
def Counters.time_us (c : Counters) : Name → Nat
  | .getmatch => c.profile_getmatch_time_us
  | .findlongest => c.profile_findlongest_time_us
  | .hash => c.profile_hash_time_us

/-- The statement `PROFILE_START(name)`: the local `profile_start_<name>` receives the
clock reading `now`; no counter is touched. -/
def PROFILE_START (now : Nat) : Nat := now

/-- The statement `PROFILE_END(name)` with the local `profile_start_<name>` holding
`profile_start` and the clock reading `profile_end`:
`profile_<name>_time_us += (profile_end - profile_start); profile_<name>_calls++;` -/
def PROFILE_END (name : Name) (c : Counters) (profile_start profile_end : Nat) : Counters :=
  match name with
  | .getmatch =>
    { c with
      profile_getmatch_time_us := add64 c.profile_getmatch_time_us (sub64 profile_end profile_start)
      profile_getmatch_calls := add64 c.profile_getmatch_calls 1 }
  | .findlongest =>
    { c with
      profile_findlongest_time_us :=
        add64 c.profile_findlongest_time_us (sub64 profile_end profile_start)
      profile_findlongest_calls := add64 c.profile_findlongest_calls 1 }
  | .hash =>
    { c with
      profile_hash_time_us := add64 c.profile_hash_time_us (sub64 profile_end profile_start)
      profile_hash_calls := add64 c.profile_hash_calls 1 }

/-- One `PROFILE_START(name)` ... `PROFILE_END(name)` pair whose two clock readings are
`r.1` (at the start) and `r.2` (at the end). -/
def profilePair (name : Name) (c : Counters) (r : Nat × Nat) : Counters :=
  PROFILE_END name c (PROFILE_START r.1) r.2

/-- A sequence of pairs on the same name, run in order. -/
def runPairs (name : Name) (c : Counters) (rs : List (Nat × Nat)) : Counters :=
  rs.foldl (profilePair name) c

/-! ## Report values of `PROFILE_PRINT` -/

/-- The `double` operations that `PROFILE_PRINT` uses, left uninterpreted: the conversion
of an `unsigned long long` (also used for the literals `0.0`, `100.0` and `1000000.0`),
the product and the quotient. -/
structure DoubleOps (F : Type) where
  ofU64 : Nat → F
  mul : F → F → F
  div : F → F → F

/-- The quotient `x / d` whose divisor is the `unsigned long long` value `d` converted to
`double`; `none` when the divisor is zero. -/
def divU64 {F : Type} (ops : DoubleOps F) (x : F) (d : Nat) : Option F :=
  if d = 0 then none else some (ops.div x (ops.ofU64 d))

/-- The argument `calls ? (double)time_us / calls : 0.0`. -/
def averagePerCall {F : Type} (ops : DoubleOps F) (calls time_us : Nat) : Option F :=
  if calls ≠ 0 then divU64 ops (ops.ofU64 time_us) calls else some (ops.ofU64 0)

/-- The argument `total ? 100.0 * time_us / total : 0.0`. -/
def percentage {F : Type} (ops : DoubleOps F) (total time_us : Nat) : Option F :=
  if total ≠ 0 then divU64 ops (ops.mul (ops.ofU64 100) (ops.ofU64 time_us)) total
  else some (ops.ofU64 0)

/-- The computed values that `PROFILE_PRINT` passes to `fprintf`. -/
structure Report (F : Type) where
  getmatch_avg : F
  findlongest_avg : F
  hash_avg : F
  total : Nat
  total_seconds : F
  getmatch_pct : F
  findlongest_pct : F
  hash_pct : F

/-- The statement `PROFILE_PRINT()`: the values it computes from the counters, in the order
of the source; `none` when one of the quotients has a zero divisor. -/
def PROFILE_PRINT {F : Type} (ops : DoubleOps F) (c : Counters) : Option (Report F) :=
  match averagePerCall ops c.profile_getmatch_calls c.profile_getmatch_time_us,
    averagePerCall ops c.profile_findlongest_calls c.profile_findlongest_time_us,
    averagePerCall ops c.profile_hash_calls c.profile_hash_time_us with
  | some a1, some a2, some a3 =>
    let total := add64 (add64 c.profile_getmatch_time_us c.profile_findlongest_time_us)
      c.profile_hash_time_us
    match divU64 ops (ops.ofU64 total) 1000000,
      percentage ops total c.profile_getmatch_time_us,
      percentage ops total c.profile_findlongest_time_us,
      percentage ops total c.profile_hash_time_us with
    | some secs, some p1, some p2, some p3 => some ⟨a1, a2, a3, total, secs, p1, p2, p3⟩
    | _, _, _, _ => none
  | _, _, _ => none

/-! ## Step-counted loops

The same loops, run for a bounded number of evaluations of a loop condition: every
evaluation of a `while` condition uses up one unit of `fuel`, and the outer `none` means
that the fuel ran out before the function returned. -/

/-- The byte loop, step-counted. -/
def byteLoopN (mem : Mem) (end_ : Nat) : Nat → Nat → Nat → Option (Option Nat)
  | 0, _, _ => none
  | fuel + 1, scan, mtch =>
    if scan < end_ then
      match mem scan, mem mtch with
      | some a, some b =>
        if a = b then byteLoopN mem end_ fuel (scan + 1) (mtch + 1) else some (some scan)
      | _, _ => some none
    else some (some scan)

/-- The 8-byte loop of the NEON and SSE2 variants followed by the byte loop, step-counted. -/
def loop8N (mem : Mem) (end_ safe_end : Nat) : Nat → Nat → Nat → Option (Option Nat)
  | 0, _, _ => none
  | fuel + 1, scan, mtch =>
    if scan + 8 ≤ safe_end then
      match load_u64 mem scan, load_u64 mem mtch with
      | some a, some b =>
        if a ≠ b then byteLoopN mem end_ fuel scan mtch
        else loop8N mem end_ safe_end fuel (scan + 8) (mtch + 8)
      | _, _ => some none
    else byteLoopN mem end_ fuel scan mtch

/-- The SSE2 variant, step-counted. -/
def SSE2.GetMatch_SIMD_N (mem : Mem) (end_ safe_end : Nat) :
    Nat → Nat → Nat → Option (Option Nat)
  | 0, _, _ => none
  | fuel + 1, scan, mtch =>
    if scan + 16 ≤ safe_end then
      match loadBytes mem scan 16, loadBytes mem mtch 16 with
      | some v_scan, some v_match =>
        let v_cmp := cmpeq_epi8 v_scan v_match
        let mask := movemask_epi8 v_cmp
        if mask ≠ 0xFFFF then
          match builtin_ctz (not32 mask) with
          | some pos => some (some (scan + pos))
          | none => some none
        else SSE2.GetMatch_SIMD_N mem end_ safe_end fuel (scan + 16) (mtch + 16)
      | _, _ => some none
    else loop8N mem end_ safe_end fuel scan mtch

/-- The NEON variant, step-counted; the inner `for` loop has its fixed sixteen iterations. -/
def NEON.GetMatch_SIMD_N (mem : Mem) (end_ safe_end : Nat) :
    Nat → Nat → Nat → Option (Option Nat)
  | 0, _, _ => none
  | fuel + 1, scan, mtch =>
    if scan + 16 ≤ safe_end then
      match loadBytes mem scan 16, loadBytes mem mtch 16 with
      | some v_scan, some v_match =>
        let v_cmp := cmpeq_epi8 v_scan v_match
        let low := lane_u64_0 v_cmp
        let high := lane_u64_1 v_cmp
        if low &&& high ≠ 0xFFFFFFFFFFFFFFFF then
          match NEON.windowScan mem scan mtch 16 0 with
          | some (some p) => some (some p)
          | some none => NEON.GetMatch_SIMD_N mem end_ safe_end fuel (scan + 16) (mtch + 16)
          | none => some none
        else NEON.GetMatch_SIMD_N mem end_ safe_end fuel (scan + 16) (mtch + 16)
      | _, _ => some none
    else loop8N mem end_ safe_end fuel scan mtch

/-- The scalar variant, step-counted. -/
def Scalar.GetMatch_SIMD_N (mem : Mem) (end_ safe_end : Nat) :
    Nat → Nat → Nat → Option (Option Nat)
  | 0, _, _ => none
  | fuel + 1, scan, mtch =>
    if scan < safe_end then
      match load_u64 mem scan, load_u64 mem mtch with
      | some a, some b =>
        if a = b then Scalar.GetMatch_SIMD_N mem end_ safe_end fuel (scan + 8) (mtch + 8)
        else byteLoopN mem end_ fuel scan mtch
      | _, _ => some none
    else byteLoopN mem end_ fuel scan mtch

/-! ## Loads -/

theorem loadBytes_some {mem : Mem} {n : Nat} : ∀ {p : Nat} {l : List Byte},
    loadBytes mem p n = some l → l.length = n ∧ ∀ i, i < n → mem (p + i) = l[i]? := by
  induction n with
  | zero =>
    intro p l h
    simp [loadBytes] at h
    subst h
    exact ⟨rfl, fun i hi => absurd hi (Nat.not_lt_zero i)⟩
  | succ n ih =>
    intro p l h
    rw [loadBytes] at h
    cases hb : mem p with
    | none => simp [hb] at h
    | some b =>
      cases hbs : loadBytes mem (p + 1) n with
      | none => simp [hb, hbs] at h
      | some bs =>
        simp [hb, hbs] at h
        subst h
        obtain ⟨hlen, hget⟩ := ih hbs
        refine ⟨by simp [hlen], ?_⟩
        intro i hi
        cases i with
        | zero => simpa using hb
        | succ i =>
          have := hget i (by omega)
          rw [List.getElem?_cons_succ, ← this]
          congr 1
          omega

theorem loadBytes_of_readable (mem : Mem) (n : Nat) : ∀ (p : Nat),
    (∀ i, i < n → (mem (p + i)).isSome) → ∃ l, loadBytes mem p n = some l := by
  induction n with
  | zero => intro p _; exact ⟨[], rfl⟩
  | succ n ih =>
    intro p h
    obtain ⟨bs, hbs⟩ := ih (p + 1) (fun i hi => by
      have := h (i + 1) (by omega)
      rwa [show p + 1 + i = p + (i + 1) by omega])
    have h0 := h 0 (by omega)
    rw [Nat.add_zero, Option.isSome_iff_exists] at h0
    obtain ⟨b, hb⟩ := h0
    exact ⟨b :: bs, by rw [loadBytes]; simp [hb, hbs]⟩

theorem loadBytes_eq_iff {mem : Mem} {n s m : Nat} {la lb : List Byte}
    (ha : loadBytes mem s n = some la) (hb : loadBytes mem m n = some lb) :
    la = lb ↔ ∀ i, i < n → mem (s + i) = mem (m + i) := by
  obtain ⟨hla, hga⟩ := loadBytes_some ha
  obtain ⟨hlb, hgb⟩ := loadBytes_some hb
  constructor
  · intro h i hi
    rw [hga i hi, hgb i hi, h]
  · intro h
    apply List.ext_getElem?
    intro i
    by_cases hi : i < n
    · rw [← hga i hi, ← hgb i hi, h i hi]
    · rw [List.getElem?_eq_none (by omega), List.getElem?_eq_none (by omega)]

theorem leValue_inj : ∀ {a b : List Byte}, a.length = b.length →
    leValue a = leValue b → a = b := by
  intro a
  induction a with
  | nil =>
    intro b hl _
    cases b with
    | nil => rfl
    | cons y b => simp at hl
  | cons x a ih =>
    intro b hl hv
    cases b with
    | nil => simp at hl
    | cons y b =>
      simp only [leValue] at hv
      have hx := x.isLt
      have hy := y.isLt
      have h1 : x.val = y.val := by omega
      have h2 : leValue a = leValue b := by omega
      rw [Fin.ext h1, ih (by simpa using hl) h2]

theorem load_u64_eq_iff {mem : Mem} {s m a b : Nat}
    (ha : load_u64 mem s = some a) (hb : load_u64 mem m = some b) :
    a = b ↔ ∀ i, i < 8 → mem (s + i) = mem (m + i) := by
  unfold load_u64 at ha hb
  cases hla : loadBytes mem s 8 with
  | none => simp [hla] at ha
  | some la =>
    cases hlb : loadBytes mem m 8 with
    | none => simp [hlb] at hb
    | some lb =>
      simp [hla] at ha
      simp [hlb] at hb
      subst ha hb
      rw [← loadBytes_eq_iff hla hlb]
      constructor
      · intro h
        exact leValue_inj (by rw [(loadBytes_some hla).1, (loadBytes_some hlb).1]) h
      · intro h
        rw [h]

theorem load_u64_of_readable (mem : Mem) (p : Nat)
    (h : ∀ i, i < 8 → (mem (p + i)).isSome) : ∃ a, load_u64 mem p = some a := by
  obtain ⟨l, hl⟩ := loadBytes_of_readable mem 8 p h
  exact ⟨leValue l, by simp [load_u64, hl]⟩

/-! ## The SSE2 equality mask -/

theorem cmpeq_epi8_cons (x y : Byte) (a b : List Byte) :
    cmpeq_epi8 (x :: a) (y :: b) = (if x = y then (255 : Byte) else (0 : Byte)) :: cmpeq_epi8 a b := by
  simp [cmpeq_epi8]

theorem movemask_cmpeq_cons (x y : Byte) (a b : List Byte) :
    movemask_epi8 (cmpeq_epi8 (x :: a) (y :: b))
      = (if x = y then 1 else 0) + 2 * movemask_epi8 (cmpeq_epi8 a b) := by
  rw [cmpeq_epi8_cons, movemask_epi8]
  by_cases h : x = y
  · rw [if_pos h, if_pos h]; rfl
  · rw [if_neg h, if_neg h]; rfl

theorem movemask_cmpeq_lt : ∀ (a b : List Byte), a.length = b.length →
    movemask_epi8 (cmpeq_epi8 a b) < 2 ^ a.length := by
  intro a
  induction a with
  | nil => intro b _; simp [cmpeq_epi8, movemask_epi8]
  | cons x a ih =>
    intro b hl
    cases b with
    | nil => simp at hl
    | cons y b =>
      have := ih b (by simpa using hl)
      rw [movemask_cmpeq_cons, List.length_cons, Nat.pow_succ]
      split <;> omega

theorem movemask_cmpeq_full : ∀ (a b : List Byte), a.length = b.length →
    (movemask_epi8 (cmpeq_epi8 a b) = 2 ^ a.length - 1 ↔ a = b) := by
  intro a
  induction a with
  | nil =>
    intro b hl
    cases b with
    | nil => simp [cmpeq_epi8, movemask_epi8]
    | cons y b => simp at hl
  | cons x a ih =>
    intro b hl
    cases b with
    | nil => simp at hl
    | cons y b =>
      have hl2 : a.length = b.length := by simpa using hl
      have hlt := movemask_cmpeq_lt a b hl2
      have hi := ih b hl2
      have hpos : 0 < 2 ^ a.length := Nat.two_pow_pos a.length
      rw [movemask_cmpeq_cons, List.length_cons, Nat.pow_succ]
      by_cases hxy : x = y
      · simp only [hxy, if_true, List.cons.injEq, true_and]
        rw [← hi]
        omega
      · simp only [hxy, if_false, List.cons.injEq, false_and, iff_false]
        omega

theorem ctz_movemask_cmpeq : ∀ (a b : List Byte) (w : Nat), a.length = b.length →
    a.length ≤ w → a ≠ b →
    ∃ j, j < a.length ∧ ctzBits w (2 ^ w - 1 - movemask_epi8 (cmpeq_epi8 a b)) = j ∧
      a[j]? ≠ b[j]? ∧ ∀ i, i < j → a[i]? = b[i]? := by
  intro a
  induction a with
  | nil =>
    intro b w hl _ hne
    cases b with
    | nil => exact absurd rfl hne
    | cons y b => simp at hl
  | cons x a ih =>
    intro b w hl hw hne
    cases b with
    | nil => simp at hl
    | cons y b =>
      have hl2 : a.length = b.length := by simpa using hl
      have hlt := movemask_cmpeq_lt a b hl2
      cases w with
      | zero => simp at hw
      | succ w =>
        have hw2 : a.length ≤ w := by simpa using hw
        have hpw : 2 ^ a.length ≤ 2 ^ w := Nat.pow_le_pow_right (by decide) hw2
        rw [movemask_cmpeq_cons, Nat.pow_succ, ctzBits]
        by_cases hxy : x = y
        · have hne2 : a ≠ b := fun h => hne (by rw [hxy, h])
          obtain ⟨j, hj, hc, hd, he⟩ := ih b w hl2 hw2 hne2
          refine ⟨j + 1, by simpa using hj, ?_, by simpa using hd, ?_⟩
          · simp only [hxy, if_true]
            have h1 : ¬ ((2 ^ w * 2 - 1 - (1 + 2 * movemask_epi8 (cmpeq_epi8 a b))) % 2 = 1) := by
              omega
            have h2 : (2 ^ w * 2 - 1 - (1 + 2 * movemask_epi8 (cmpeq_epi8 a b))) / 2
                = 2 ^ w - 1 - movemask_epi8 (cmpeq_epi8 a b) := by omega
            rw [if_neg h1, h2, hc]
            omega
          · intro i hi
            cases i with
            | zero => simp [hxy]
            | succ i => simpa using he i (by omega)
        · refine ⟨0, by simp, ?_, by simpa using hxy, fun i hi => absurd hi (Nat.not_lt_zero i)⟩
          simp only [hxy, if_false]
          have h1 : (2 ^ w * 2 - 1 - (0 + 2 * movemask_epi8 (cmpeq_epi8 a b))) % 2 = 1 := by
            omega
          rw [if_pos h1]

theorem sse2_mask_eq_iff {a b : List Byte} (ha : a.length = 16) (hb : b.length = 16) :
    movemask_epi8 (cmpeq_epi8 a b) = 0xFFFF ↔ a = b := by
  have := movemask_cmpeq_full a b (by rw [ha, hb])
  rw [ha] at this
  exact this

theorem sse2_ctz_mask {a b : List Byte} (ha : a.length = 16) (hb : b.length = 16)
    (hne : a ≠ b) :
    ∃ j, j < 16 ∧ builtin_ctz (not32 (movemask_epi8 (cmpeq_epi8 a b))) = some j ∧
      a[j]? ≠ b[j]? ∧ ∀ i, i < j → a[i]? = b[i]? := by
  obtain ⟨j, hj, hc, hd, he⟩ := ctz_movemask_cmpeq a b 32 (by rw [ha, hb]) (by rw [ha]; decide) hne
  have hlt := movemask_cmpeq_lt a b (by rw [ha, hb])
  rw [ha] at hlt hj
  refine ⟨j, hj, ?_, hd, he⟩
  have h32 : (2 : Nat) ^ 32 = 4294967296 := by norm_num
  have h16 : (2 : Nat) ^ 16 = 65536 := by norm_num
  rw [h32] at hc
  rw [h16] at hlt
  unfold builtin_ctz not32
  rw [h32, Nat.mod_eq_of_lt (by omega), if_neg (by omega), hc]

/-! ## The NEON comparison lanes -/

theorem leValue_cmpeq_cons (x y : Byte) (a b : List Byte) :
    leValue (cmpeq_epi8 (x :: a) (y :: b))
      = (if x = y then 255 else 0) + 256 * leValue (cmpeq_epi8 a b) := by
  rw [cmpeq_epi8_cons, leValue]
  by_cases h : x = y
  · rw [if_pos h, if_pos h]; rfl
  · rw [if_neg h, if_neg h]; rfl

theorem leValue_cmpeq_lt : ∀ (a b : List Byte), a.length = b.length →
    leValue (cmpeq_epi8 a b) < 256 ^ a.length := by
  intro a
  induction a with
  | nil => intro b _; simp [cmpeq_epi8, leValue]
  | cons x a ih =>
    intro b hl
    cases b with
    | nil => simp at hl
    | cons y b =>
      have := ih b (by simpa using hl)
      rw [leValue_cmpeq_cons, List.length_cons, Nat.pow_succ]
      split <;> omega

theorem leValue_cmpeq_full : ∀ (a b : List Byte), a.length = b.length →
    (leValue (cmpeq_epi8 a b) = 256 ^ a.length - 1 ↔ a = b) := by
  intro a
  induction a with
  | nil =>
    intro b hl
    cases b with
    | nil => simp [cmpeq_epi8, leValue]
    | cons y b => simp at hl
  | cons x a ih =>
    intro b hl
    cases b with
    | nil => simp at hl
    | cons y b =>
      have hl2 : a.length = b.length := by simpa using hl
      have hlt := leValue_cmpeq_lt a b hl2
      have hi := ih b hl2
      rw [leValue_cmpeq_cons, List.length_cons, Nat.pow_succ]
      by_cases hxy : x = y
      · simp only [hxy, if_true, List.cons.injEq, true_and]
        rw [← hi]
        omega
      · simp only [hxy, if_false, List.cons.injEq, false_and, iff_false]
        omega

theorem neon_lanes_eq_iff {a b : List Byte} (ha : a.length = 16) (hb : b.length = 16) :
    lane_u64_0 (cmpeq_epi8 a b) &&& lane_u64_1 (cmpeq_epi8 a b) = 0xFFFFFFFFFFFFFFFF ↔
      a = b := by
  have e0 : lane_u64_0 (cmpeq_epi8 a b) = leValue (cmpeq_epi8 (a.take 8) (b.take 8)) := by
    unfold lane_u64_0 cmpeq_epi8
    rw [List.take_zipWith]
  have e1 : lane_u64_1 (cmpeq_epi8 a b) = leValue (cmpeq_epi8 (a.drop 8) (b.drop 8)) := by
    unfold lane_u64_1 cmpeq_epi8
    rw [List.drop_zipWith, List.take_of_length_le]
    simp [ha, hb]
  have hl0 : (a.take 8).length = (b.take 8).length := by simp [ha, hb]
  have hl1 : (a.drop 8).length = (b.drop 8).length := by simp [ha, hb]
  have f0 := leValue_cmpeq_full _ _ hl0
  have f1 := leValue_cmpeq_full _ _ hl1
  have b0 := leValue_cmpeq_lt _ _ hl0
  have b1 := leValue_cmpeq_lt _ _ hl1
  have n0 : (a.take 8).length = 8 := by simp [ha]
  have n1 : (a.drop 8).length = 8 := by simp [ha]
  rw [n0] at f0 b0
  rw [n1] at f1 b1
  have h256 : (256 : Nat) ^ 8 = 18446744073709551616 := by norm_num
  rw [h256] at f0 f1 b0 b1
  rw [e0, e1]
  constructor
  · intro h
    have l0 := @Nat.and_le_left (leValue (cmpeq_epi8 (a.take 8) (b.take 8)))
      (leValue (cmpeq_epi8 (a.drop 8) (b.drop 8)))
    have l1 := @Nat.and_le_right (leValue (cmpeq_epi8 (a.take 8) (b.take 8)))
      (leValue (cmpeq_epi8 (a.drop 8) (b.drop 8)))
    rw [h] at l0 l1
    have t0 := f0.1 (by omega)
    have t1 := f1.1 (by omega)
    rw [← List.take_append_drop 8 a, ← List.take_append_drop 8 b, t0, t1]
  · intro h
    subst h
    rw [f0.2 rfl, f1.2 rfl]
    decide

theorem windowScan_found (mem : Mem) (s m : Nat) : ∀ (n i j : Nat), i ≤ j → j < i + n →
    (∀ t, i ≤ t → t < j → ∃ b, mem (s + t) = some b ∧ mem (m + t) = some b) →
    (∃ x y, mem (s + j) = some x ∧ mem (m + j) = some y ∧ x ≠ y) →
    NEON.windowScan mem s m n i = some (some (s + j)) := by
  intro n
  induction n with
  | zero => intro i j h1 h2; omega
  | succ n ih =>
    intro i j h1 h2 heq hne
    rw [NEON.windowScan]
    by_cases hij : i = j
    · subst hij
      obtain ⟨x, y, hx, hy, hxy⟩ := hne
      simp [hx, hy, hxy]
    · obtain ⟨b, hb1, hb2⟩ := heq i (Nat.le_refl i) (by omega)
      simp only [hb1, hb2, ne_eq, not_true_eq_false, if_false]
      exact ih (i + 1) j (by omega) (by omega) (fun t ht1 ht2 => heq t (by omega) ht2) hne

/-! ## Where the extension stops -/

theorem StopsAt.shift {mem : Mem} {s m e p : Nat} (h : StopsAt mem s m e p) (d : Nat)
    (hd : s + d ≤ p) : StopsAt mem (s + d) (m + d) e p := by
  obtain ⟨_, h2, h3, h4⟩ := h
  refine ⟨hd, h2, ?_, ?_⟩
  · intro i hi
    have := h3 (d + i) (by omega)
    rwa [Nat.add_assoc, Nat.add_assoc]
  · rcases h4 with h4 | h4
    · exact Or.inl h4
    · right
      rwa [show m + d + (p - (s + d)) = m + (p - s) by omega]

theorem StopsAt.window_le {mem : Mem} {s m e p : Nat} (h : StopsAt mem s m e p) (w : Nat)
    (heq : ∀ i, i < w → mem (s + i) = mem (m + i)) (hp : p < s + w → p ≠ e) :
    s + w ≤ p := by
  by_contra hlt
  have hlt : p < s + w := by omega
  obtain ⟨h1, _, _, h4⟩ := h
  rcases h4 with h4 | ⟨x, y, hx, hy, hxy⟩
  · exact hp hlt h4
  · have := heq (p - s) (by omega)
    rw [show s + (p - s) = p by omega, hx, hy] at this
    exact hxy (Option.some.inj this)

theorem StopsAt.window_eq {mem : Mem} {s m e p : Nat} (h : StopsAt mem s m e p) (j : Nat)
    (hne : mem (s + j) ≠ mem (m + j)) (heq : ∀ i, i < j → mem (s + i) = mem (m + i))
    (hp : p < s + j → p ≠ e) : p = s + j := by
  have hle := h.window_le j heq hp
  obtain ⟨_, _, h3, _⟩ := h
  by_contra hcon
  obtain ⟨b, hb1, hb2⟩ := h3 j (by omega)
  exact hne (by rw [hb1, hb2])

theorem StopsAt.differs {mem : Mem} {s m e p : Nat} (h : StopsAt mem s m e p) (hp : p ≠ e) :
    ∃ x y, mem (s + (p - s)) = some x ∧ mem (m + (p - s)) = some y ∧ x ≠ y := by
  obtain ⟨h1, _, _, h4⟩ := h
  rcases h4 with h4 | h4
  · exact absurd h4 hp
  · rwa [show s + (p - s) = p by omega]

theorem byteLoop_stopsAt {mem : Mem} {e p : Nat} : ∀ (n s m : Nat), p - s = n →
    StopsAt mem s m e p → byteLoop mem e s m = some p := by
  intro n
  induction n with
  | zero =>
    intro s m hn h
    have hsp : s = p := by have := h.1; omega
    subst hsp
    rw [byteLoop]
    by_cases hlt : s < e
    · obtain ⟨x, y, hx, hy, hxy⟩ := h.differs (by omega)
      rw [Nat.sub_self, Nat.add_zero] at hx hy
      simp [hlt, hx, hy, hxy]
    · simp [hlt]
  | succ n ih =>
    intro s m hn h
    have hlt : s < e := by have := h.2.1; omega
    obtain ⟨b, hb1, hb2⟩ := h.2.2.1 0 (by omega)
    rw [Nat.add_zero] at hb1 hb2
    rw [byteLoop]
    simp only [hlt, dite_true, hb1, hb2, if_true]
    exact ih (s + 1) (m + 1) (by omega) (h.shift 1 (by omega))

theorem loop8_stopsAt {mem : Mem} {e se p : Nat} (hse : se ≤ e) : ∀ (n s m : Nat),
    se - s = n → StopsAt mem s m e p →
    (∀ i, s + i < se → (mem (s + i)).isSome ∧ (mem (m + i)).isSome) →
    loop8 mem e se s m = some p := by
  intro n
  induction n using Nat.strong_induction_on with
  | _ n ih =>
    intro s m hn h hr
    rw [loop8]
    by_cases hc : s + 8 ≤ se
    · obtain ⟨a, ha⟩ := load_u64_of_readable mem s
        (fun i hi => (hr i (by omega)).1)
      obtain ⟨b, hb⟩ := load_u64_of_readable mem m
        (fun i hi => (hr i (by omega)).2)
      simp only [hc, dite_true, ha, hb]
      by_cases hab : a = b
      · have heq := (load_u64_eq_iff ha hb).1 hab
        have hle := h.window_le 8 heq (by omega)
        simp only [hab, ne_eq, not_true_eq_false, if_false]
        exact ih (se - (s + 8)) (by omega) (s + 8) (m + 8) rfl (h.shift 8 hle)
          (fun i hi => by
            have := hr (8 + i) (by omega)
            rwa [Nat.add_assoc, Nat.add_assoc])
      · simp only [ne_eq, hab, not_false_eq_true, if_true]
        exact byteLoop_stopsAt _ s m rfl h
    · simp only [hc, dite_false]
      exact byteLoop_stopsAt _ s m rfl h

theorem sse2_getMatch_stopsAt {mem : Mem} {e se p : Nat} (hse : se ≤ e) : ∀ (n s m : Nat),
    se - s = n → StopsAt mem s m e p →
    (∀ i, s + i < se → (mem (s + i)).isSome ∧ (mem (m + i)).isSome) →
    SSE2.GetMatch_SIMD mem s m e se = some p := by
  intro n
  induction n using Nat.strong_induction_on with
  | _ n ih =>
    intro s m hn h hr
    rw [SSE2.GetMatch_SIMD]
    by_cases hc : s + 16 ≤ se
    · obtain ⟨la, hla⟩ := loadBytes_of_readable mem 16 s
        (fun i hi => (hr i (by omega)).1)
      obtain ⟨lb, hlb⟩ := loadBytes_of_readable mem 16 m
        (fun i hi => (hr i (by omega)).2)
      have hna := (loadBytes_some hla).1
      have hnb := (loadBytes_some hlb).1
      simp only [hc, dite_true, hla, hlb]
      by_cases hab : la = lb
      · have hmask := (sse2_mask_eq_iff hna hnb).2 hab
        have heq := (loadBytes_eq_iff hla hlb).1 hab
        have hle := h.window_le 16 heq (by omega)
        simp only [hmask, ne_eq, not_true_eq_false, if_false]
        exact ih (se - (s + 16)) (by omega) (s + 16) (m + 16) rfl (h.shift 16 hle)
          (fun i hi => by
            have := hr (16 + i) (by omega)
            rwa [Nat.add_assoc, Nat.add_assoc])
      · have hmask : movemask_epi8 (cmpeq_epi8 la lb) ≠ 0xFFFF :=
          fun hm => hab ((sse2_mask_eq_iff hna hnb).1 hm)
        obtain ⟨j, hj, hctz, hd, hbefore⟩ := sse2_ctz_mask hna hnb hab
        have hne : mem (s + j) ≠ mem (m + j) := by
          rw [(loadBytes_some hla).2 j hj, (loadBytes_some hlb).2 j hj]
          exact hd
        have heq : ∀ i, i < j → mem (s + i) = mem (m + i) := fun i hi => by
          rw [(loadBytes_some hla).2 i (by omega), (loadBytes_some hlb).2 i (by omega)]
          exact hbefore i hi
        have hp := h.window_eq j hne heq (by omega)
        simp only [ne_eq, hmask, not_false_eq_true, if_true, hctz, hp]
    · simp only [hc, dite_false]
      exact loop8_stopsAt hse _ s m rfl h hr

theorem neon_getMatch_stopsAt {mem : Mem} {e se p : Nat} (hse : se ≤ e) : ∀ (n s m : Nat),
    se - s = n → StopsAt mem s m e p →
    (∀ i, s + i < se → (mem (s + i)).isSome ∧ (mem (m + i)).isSome) →
    NEON.GetMatch_SIMD mem s m e se = some p := by
  intro n
  induction n using Nat.strong_induction_on with
  | _ n ih =>
    intro s m hn h hr
    rw [NEON.GetMatch_SIMD]
    by_cases hc : s + 16 ≤ se
    · obtain ⟨la, hla⟩ := loadBytes_of_readable mem 16 s
        (fun i hi => (hr i (by omega)).1)
      obtain ⟨lb, hlb⟩ := loadBytes_of_readable mem 16 m
        (fun i hi => (hr i (by omega)).2)
      have hna := (loadBytes_some hla).1
      have hnb := (loadBytes_some hlb).1
      simp only [hc, dite_true, hla, hlb]
      by_cases hab : la = lb
      · have hlanes := (neon_lanes_eq_iff hna hnb).2 hab
        have heq := (loadBytes_eq_iff hla hlb).1 hab
        have hle := h.window_le 16 heq (by omega)
        simp only [hlanes, ne_eq, not_true_eq_false, if_false]
        exact ih (se - (s + 16)) (by omega) (s + 16) (m + 16) rfl (h.shift 16 hle)
          (fun i hi => by
            have := hr (16 + i) (by omega)
            rwa [Nat.add_assoc, Nat.add_assoc])
      · have hlanes : lane_u64_0 (cmpeq_epi8 la lb) &&& lane_u64_1 (cmpeq_epi8 la lb)
            ≠ 0xFFFFFFFFFFFFFFFF :=
          fun hm => hab ((neon_lanes_eq_iff hna hnb).1 hm)
        have hne16 : ¬ ∀ i, i < 16 → mem (s + i) = mem (m + i) :=
          fun hall => hab ((loadBytes_eq_iff hla hlb).2 hall)
        have hlt : p < s + 16 := by
          by_contra hge
          apply hne16
          intro i hi
          obtain ⟨b, hb1, hb2⟩ := h.2.2.1 i (by omega)
          rw [hb1, hb2]
        have hfound := windowScan_found mem s m 16 0 (p - s)
          (Nat.zero_le _) (by have := h.1; omega)
          (fun t _ ht => h.2.2.1 t (by have := h.1; omega))
          (h.differs (by omega))
        rw [show s + (p - s) = p by have := h.1; omega] at hfound
        simp only [ne_eq, hlanes, not_false_eq_true, if_true, hfound]
    · simp only [hc, dite_false]
      exact loop8_stopsAt hse _ s m rfl h hr

theorem scalar_getMatch_stopsAt {mem : Mem} {e se p : Nat} : ∀ (n s m : Nat),
    se - s = n → StopsAt mem s m e p →
    (∀ j, s + 8 * j < se → s + 8 * j ≤ p → ∀ i, i < 8 →
      (mem (s + 8 * j + i)).isSome ∧ (mem (m + 8 * j + i)).isSome) →
    (p = e → ∀ j, s + 8 * j < se → s + 8 * j + 8 ≤ e) →
    Scalar.GetMatch_SIMD mem s m e se = some p := by
  intro n
  induction n using Nat.strong_induction_on with
  | _ n ih =>
    intro s m hn h hr hfit
    rw [Scalar.GetMatch_SIMD]
    by_cases hc : s < se
    · have hr0 := hr 0 (by omega) (by have := h.1; omega)
      obtain ⟨a, ha⟩ := load_u64_of_readable mem s
        (fun i hi => by simpa using (hr0 i hi).1)
      obtain ⟨b, hb⟩ := load_u64_of_readable mem m
        (fun i hi => by simpa using (hr0 i hi).2)
      simp only [hc, dite_true, ha, hb]
      by_cases hab : a = b
      · have heq := (load_u64_eq_iff ha hb).1 hab
        have hle := h.window_le 8 heq (fun hlt hpe => by
          have := hfit hpe 0 (by omega)
          omega)
        simp only [hab, if_true]
        exact ih (se - (s + 8)) (by omega) (s + 8) (m + 8) rfl (h.shift 8 hle)
          (fun j hj1 hj2 i hi => by
            have := hr (j + 1) (by omega) (by omega) i hi
            rwa [show s + 8 * (j + 1) = s + 8 + 8 * j by omega,
              show m + 8 * (j + 1) = m + 8 + 8 * j by omega] at this)
          (fun hpe j hj => by
            have := hfit hpe (j + 1) (by omega)
            omega)
      · simp only [hab, if_false]
        exact byteLoop_stopsAt _ s m rfl h
    · simp only [hc, dite_false]
      exact byteLoop_stopsAt _ s m rfl h

theorem exists_stopsAt {mem : Mem} {scan mtch e : Nat} (hle : scan ≤ e)
    (hr : Readable mem scan mtch e) : ∃ p, StopsAt mem scan mtch e p := by
  classical
  have hex : ∃ q, scan ≤ q ∧ Diverges mem scan mtch e q := ⟨e, hle, Or.inl rfl⟩
  refine ⟨Nat.find hex, (Nat.find_spec hex).1, Nat.find_min' hex ⟨hle, Or.inl rfl⟩, ?_, ?_⟩
  · intro i hi
    have hmin := Nat.find_min hex hi
    have hpe : Nat.find hex ≤ e := Nat.find_min' hex ⟨hle, Or.inl rfl⟩
    have hrd := hr (scan + i) (by omega) (by omega)
    rw [show scan + i - scan = i by omega] at hrd
    obtain ⟨b, hb⟩ := Option.isSome_iff_exists.1 hrd.1
    refine ⟨b, hb, ?_⟩
    by_contra hne
    apply hmin
    refine ⟨by omega, Or.inr ?_⟩
    rw [show scan + i - scan = i by omega, hb]
    exact fun h => hne h.symm
  · by_cases hpe : Nat.find hex = e
    · exact Or.inl hpe
    · right
      have hpe2 : Nat.find hex ≤ e := Nat.find_min' hex ⟨hle, Or.inl rfl⟩
      have hs := (Nat.find_spec hex).1
      have hrd := hr (Nat.find hex) (by omega) hs
      obtain ⟨x, hx⟩ := Option.isSome_iff_exists.1 hrd.1
      obtain ⟨y, hy⟩ := Option.isSome_iff_exists.1 hrd.2
      refine ⟨x, y, hx, hy, ?_⟩
      rcases (Nat.find_spec hex).2 with h | h
      · exact absurd h hpe
      · intro hxy
        apply h
        rw [hx, hy, hxy]

theorem StopsAt.isFirstDivergence {mem : Mem} {scan mtch e p : Nat}
    (h : StopsAt mem scan mtch e p) : IsFirstDivergence mem scan mtch e p := by
  obtain ⟨h1, h2, h3, h4⟩ := h
  refine ⟨h1, ?_, ?_⟩
  · rcases h4 with h4 | ⟨x, y, hx, hy, hxy⟩
    · exact Or.inl h4
    · right
      rw [hx, hy]
      exact fun h => hxy (Option.some.inj h)
  · intro q hq hsq hdiv
    obtain ⟨b, hb1, hb2⟩ := h3 (q - scan) (by omega)
    rw [show scan + (q - scan) = q by omega] at hb1
    rcases hdiv with hdiv | hdiv
    · omega
    · exact hdiv (by rw [hb1, hb2])

theorem IsFirstDivergence.unique {mem : Mem} {scan mtch e p q : Nat}
    (hp : IsFirstDivergence mem scan mtch e p) (hq : IsFirstDivergence mem scan mtch e q) :
    p = q := by
  rcases Nat.lt_trichotomy p q with h | h | h
  · exact absurd hp.2.1 (hq.2.2 p h hp.1)
  · exact h
  · exact absurd hq.2.1 (hp.2.2 q h hq.1)

theorem Readable.bytes_below {mem : Mem} {scan mtch e se : Nat}
    (hr : Readable mem scan mtch e) (hse : se ≤ e) :
    ∀ i, scan + i < se → (mem (scan + i)).isSome ∧ (mem (mtch + i)).isSome := by
  intro i hi
  have := hr (scan + i) (by omega) (by omega)
  rwa [show scan + i - scan = i by omega] at this

theorem StopsAt.on_restrictMem {mem : Mem} {scan mtch e p : Nat} (h : StopsAt mem scan mtch e p) :
    StopsAt (restrictMem mem scan mtch e) scan mtch e p := by
  obtain ⟨h1, h2, h3, h4⟩ := h
  refine ⟨h1, h2, ?_, ?_⟩
  · intro i hi
    obtain ⟨b, hb1, hb2⟩ := h3 i hi
    refine ⟨b, ?_, ?_⟩
    · unfold restrictMem
      rw [if_pos (Or.inl ⟨by omega, by omega⟩)]
      exact hb1
    · unfold restrictMem
      rw [if_pos (Or.inr ⟨by omega, by omega⟩)]
      exact hb2
  · by_cases hpe : p = e
    · exact Or.inl hpe
    · rcases h4 with h4 | ⟨x, y, hx, hy, hxy⟩
      · exact absurd h4 hpe
      · right
        refine ⟨x, y, ?_, ?_, hxy⟩
        · unfold restrictMem
          rw [if_pos (Or.inl ⟨by omega, by omega⟩)]
          exact hx
        · unfold restrictMem
          rw [if_pos (Or.inr ⟨by omega, by omega⟩)]
          exact hy

theorem Readable.restricted {mem : Mem} {scan mtch e : Nat} (hr : Readable mem scan mtch e) :
    Readable (restrictMem mem scan mtch e) scan mtch e := by
  intro a ha hsa
  have := hr a ha hsa
  unfold restrictMem
  rw [if_pos (Or.inl ⟨hsa, ha⟩), if_pos (Or.inr ⟨by omega, by omega⟩)]
  exact this

theorem sse2_getMatch_of_readable {mem : Mem} {scan mtch e se p : Nat} (hse : se ≤ e)
    (hr : Readable mem scan mtch e) (h : StopsAt mem scan mtch e p) :
    SSE2.GetMatch_SIMD mem scan mtch e se = some p :=
  sse2_getMatch_stopsAt hse _ scan mtch rfl h (hr.bytes_below hse)

theorem neon_getMatch_of_readable {mem : Mem} {scan mtch e se p : Nat} (hse : se ≤ e)
    (hr : Readable mem scan mtch e) (h : StopsAt mem scan mtch e p) :
    NEON.GetMatch_SIMD mem scan mtch e se = some p :=
  neon_getMatch_stopsAt hse _ scan mtch rfl h (hr.bytes_below hse)

theorem scalar_getMatch_of_wordsFit {mem : Mem} {scan mtch e se p : Nat}
    (hfit : WordsFit scan e se) (hr : Readable mem scan mtch e)
    (h : StopsAt mem scan mtch e p) :
    Scalar.GetMatch_SIMD mem scan mtch e se = some p := by
  have hfit2 : ∀ j, scan + 8 * j < se → scan + 8 * j + 8 ≤ e :=
    fun j hj => hfit j (by omega) hj
  refine scalar_getMatch_stopsAt _ scan mtch rfl h ?_ (fun _ => hfit2)
  intro j hj _ i hi
  have h8 := hfit2 j hj
  have := hr (scan + 8 * j + i) (by omega) (by omega)
  rwa [show mtch + (scan + 8 * j + i - scan) = mtch + 8 * j + i by omega] at this

theorem IsFirstDivergence.eq_end {mem : Mem} {scan mtch e p : Nat} (hle : scan ≤ e)
    (h : IsFirstDivergence mem scan mtch e p)
    (hall : ∀ a < e, scan ≤ a → mem a = mem (mtch + (a - scan))) : p = e := by
  rcases Nat.lt_trichotomy p e with hlt | heq | hgt
  · rcases h.2.1 with hd | hd
    · exact hd
    · exact absurd (hall p hlt h.1) hd
  · exact heq
  · exact absurd (Or.inl rfl) (h.2.2 e hgt hle)

theorem StopsAt.of_first_diff {mem : Mem} {scan mtch e k : Nat} (hk : k < e - scan)
    (heq : ∀ i < k, ∃ b, mem (scan + i) = some b ∧ mem (mtch + i) = some b)
    (hne : ∃ x y, mem (scan + k) = some x ∧ mem (mtch + k) = some y ∧ x ≠ y) :
    StopsAt mem scan mtch e (scan + k) := by
  refine ⟨by omega, by omega, fun i hi => heq i (by omega), Or.inr ?_⟩
  rwa [show scan + k - scan = k by omega]

theorem load_u64_readable {mem : Mem} {p a : Nat} (h : load_u64 mem p = some a) :
    ∀ i, i < 8 → (mem (p + i)).isSome := by
  unfold load_u64 at h
  cases hl : loadBytes mem p 8 with
  | none => simp [hl] at h
  | some l =>
    obtain ⟨hlen, hget⟩ := loadBytes_some hl
    intro i hi
    rw [hget i hi, List.getElem?_eq_getElem (by omega)]
    rfl

theorem scalar_words_of_some {mem : Mem} {e se p : Nat} : ∀ (n s m r : Nat),
    se - s = n → StopsAt mem s m e p →
    Scalar.GetMatch_SIMD mem s m e se = some r →
    ∀ j, s + 8 * j < se → s + 8 * j ≤ p → ∀ i, i < 8 →
      (mem (s + 8 * j + i)).isSome ∧ (mem (m + 8 * j + i)).isSome := by
  intro n
  induction n using Nat.strong_induction_on with
  | _ n ih =>
    intro s m r hn h hres j hj hjp i hi
    rw [Scalar.GetMatch_SIMD] at hres
    have hc : s < se := by omega
    simp only [hc, dite_true] at hres
    cases ha : load_u64 mem s with
    | none => simp [ha] at hres
    | some a =>
      cases hb : load_u64 mem m with
      | none => simp [ha, hb] at hres
      | some b =>
        simp only [ha, hb] at hres
        cases j with
        | zero =>
          simp only [Nat.mul_zero, Nat.add_zero]
          exact ⟨load_u64_readable ha i hi, load_u64_readable hb i hi⟩
        | succ j =>
          have hab : a = b := by
            rw [load_u64_eq_iff ha hb]
            intro t ht
            obtain ⟨x, hx1, hx2⟩ := h.2.2.1 t (by omega)
            rw [hx1, hx2]
          simp only [hab, if_true] at hres
          have := ih (se - (s + 8)) (by omega) (s + 8) (m + 8) r rfl (h.shift 8 (by omega))
            hres j (by omega) (by omega) i hi
          rwa [show s + 8 * (j + 1) = s + 8 + 8 * j by omega,
            show m + 8 * (j + 1) = m + 8 + 8 * j by omega]

theorem StopsAt.of_readable_diff {mem : Mem} {scan mtch e k : Nat} (hk : k < e - scan)
    (hr : Readable mem scan mtch e)
    (heq : ∀ i < k, mem (scan + i) = mem (mtch + i))
    (hne : mem (scan + k) ≠ mem (mtch + k)) : StopsAt mem scan mtch e (scan + k) := by
  apply StopsAt.of_first_diff hk
  · intro i hi
    have hrd := (hr (scan + i) (by omega) (by omega)).1
    obtain ⟨b, hb⟩ := Option.isSome_iff_exists.1 hrd
    exact ⟨b, hb, by rw [← heq i hi, hb]⟩
  · have hrd := hr (scan + k) (by omega) (by omega)
    rw [show scan + k - scan = k by omega] at hrd
    obtain ⟨x, hx⟩ := Option.isSome_iff_exists.1 hrd.1
    obtain ⟨y, hy⟩ := Option.isSome_iff_exists.1 hrd.2
    exact ⟨x, y, hx, hy, fun hxy => hne (by rw [hx, hy, hxy])⟩

/-! ## Counter lemmas -/

theorem calls_PROFILE_END (name : Name) (c : Counters) (s e : Nat) :
    (PROFILE_END name c s e).calls name = add64 (c.calls name) 1 := by
  cases name <;> rfl

theorem time_us_PROFILE_END (name : Name) (c : Counters) (s e : Nat) :
    (PROFILE_END name c s e).time_us name = add64 (c.time_us name) (sub64 e s) := by
  cases name <;> rfl

theorem runPairs_counters (name : Name) : ∀ (rs : List (Nat × Nat)) (c : Counters),
    c.calls name < 2 ^ 64 → c.time_us name < 2 ^ 64 →
    (runPairs name c rs).calls name = (c.calls name + rs.length) % 2 ^ 64 ∧
    (runPairs name c rs).time_us name
      = (c.time_us name + (rs.map (fun r => sub64 r.2 r.1)).sum) % 2 ^ 64 := by
  intro rs
  induction rs with
  | nil =>
    intro c hc ht
    simp only [runPairs, List.foldl_nil, List.length_nil, List.map_nil, List.sum_nil,
      Nat.add_zero]
    exact ⟨(Nat.mod_eq_of_lt hc).symm, (Nat.mod_eq_of_lt ht).symm⟩
  | cons r rs ih =>
    intro c hc ht
    have hstep : runPairs name c (r :: rs) = runPairs name (profilePair name c r) rs := rfl
    have hcalls : (profilePair name c r).calls name = add64 (c.calls name) 1 :=
      calls_PROFILE_END name c _ _
    have htime : (profilePair name c r).time_us name
        = add64 (c.time_us name) (sub64 r.2 r.1) := time_us_PROFILE_END name c _ _
    have hc2 : (profilePair name c r).calls name < 2 ^ 64 := by
      rw [hcalls]; exact Nat.mod_lt _ (Nat.two_pow_pos 64)
    have ht2 : (profilePair name c r).time_us name < 2 ^ 64 := by
      rw [htime]; exact Nat.mod_lt _ (Nat.two_pow_pos 64)
    obtain ⟨i1, i2⟩ := ih (profilePair name c r) hc2 ht2
    rw [hstep, i1, i2, hcalls, htime]
    simp only [add64, List.length_cons, List.map_cons, List.sum_cons]
    constructor <;> omega

theorem sub64_int (e s : Nat) : ((sub64 e s : Nat) : Int) = ((e : Int) - (s : Int)) % 2 ^ 64 := by
  unfold sub64
  omega

theorem sub64_eq_sub {s e : Nat} (h1 : s ≤ e) (h2 : e - s < 2 ^ 64) : sub64 e s = e - s := by
  unfold sub64
  omega

theorem sum_sub64_int : ∀ (rs : List (Nat × Nat)),
    (((rs.map (fun r => sub64 r.2 r.1)).sum : Nat) : Int) % 2 ^ 64
      = (rs.map (fun r => (r.2 : Int) - (r.1 : Int))).sum % 2 ^ 64 := by
  intro rs
  induction rs with
  | nil => rfl
  | cons r rs ih =>
    simp only [List.map_cons, List.sum_cons, Nat.cast_add]
    have h := sub64_int r.2 r.1
    omega

theorem sum_sub64_nat : ∀ (rs : List (Nat × Nat)), (∀ r ∈ rs, r.1 ≤ r.2) →
    (rs.map (fun r => r.2 - r.1)).sum < 2 ^ 64 →
    (rs.map (fun r => sub64 r.2 r.1)).sum = (rs.map (fun r => r.2 - r.1)).sum := by
  intro rs
  induction rs with
  | nil => intro _ _; rfl
  | cons r rs ih =>
    intro hle hsum
    simp only [List.map_cons, List.sum_cons] at hsum ⊢
    rw [ih (fun x hx => hle x (List.mem_cons_of_mem _ hx)) (by omega),
      sub64_eq_sub (hle r (List.mem_cons_self _ _)) (by omega)]

/-! ## Match extension: the claims -/

/-- C1. SSE2 variant of `GetMatch_SIMD`: when `scan ≤ end`, `safe_end ≤ end` and the bytes
of `[scan, end)` and their counterparts at `match` are readable, the function returns a
position, and that position is the smallest `p ≥ scan` such that `p = end` or the byte at
`p` differs from the byte at `match + (p - scan)`. -/
theorem sse2_returns_first_divergence (mem : Mem) (scan mtch end_ safe_end : Nat)
    (h1 : scan ≤ end_) (h2 : safe_end ≤ end_) (hr : Readable mem scan mtch end_) :
    ∃ p, SSE2.GetMatch_SIMD mem scan mtch end_ safe_end = some p ∧
      IsFirstDivergence mem scan mtch end_ p := by
  obtain ⟨p, hp⟩ := exists_stopsAt h1 hr
  exact ⟨p, sse2_getMatch_of_readable h2 hr hp, hp.isFirstDivergence⟩

/-- Instance of C1 on a memory whose only mismatch sits inside the second 16-byte window:
`scan = 40`, `match = 0`, `end = safe_end = 80`, differing byte at address 61. -/
theorem sse2_returns_first_divergence_witness :
    (40 ≤ 80 ∧ 80 ≤ 80 ∧ Readable (spikeMem 61) 40 0 80) ∧
    ∃ p, SSE2.GetMatch_SIMD (spikeMem 61) 40 0 80 80 = some p ∧
      IsFirstDivergence (spikeMem 61) 40 0 80 p :=
  ⟨⟨by decide, by decide, by decide⟩,
    sse2_returns_first_divergence (spikeMem 61) 40 0 80 80 (by decide) (by decide) (by decide)⟩

/-- C2. NEON variant of `GetMatch_SIMD`: when `scan ≤ end`, `safe_end ≤ end` and the bytes
of `[scan, end)` and their counterparts are readable, the function returns the smallest
`p ≥ scan` such that `p = end` or the byte at `p` differs from its counterpart.  Moreover,
for the two 16-byte vectors loaded at `scan` and `match`, whenever the AND of the two 64-bit
halves of their comparison is not all ones, the window scan returns `scan + j` for the first
differing index `j < 16`; it never runs to its end, so the loop never advances by 16 past a
difference. -/
theorem neon_returns_first_divergence (mem : Mem) (scan mtch end_ safe_end : Nat)
    (h1 : scan ≤ end_) (h2 : safe_end ≤ end_) (hr : Readable mem scan mtch end_) :
    (∃ p, NEON.GetMatch_SIMD mem scan mtch end_ safe_end = some p ∧
      IsFirstDivergence mem scan mtch end_ p) ∧
    ∀ v_scan v_match, loadBytes mem scan 16 = some v_scan →
      loadBytes mem mtch 16 = some v_match →
      lane_u64_0 (cmpeq_epi8 v_scan v_match) &&& lane_u64_1 (cmpeq_epi8 v_scan v_match)
        ≠ 0xFFFFFFFFFFFFFFFF →
      ∃ j, j < 16 ∧ NEON.windowScan mem scan mtch 16 0 = some (some (scan + j)) ∧
        mem (scan + j) ≠ mem (mtch + j) ∧ ∀ i < j, mem (scan + i) = mem (mtch + i) := by
  constructor
  · obtain ⟨p, hp⟩ := exists_stopsAt h1 hr
    exact ⟨p, neon_getMatch_of_readable h2 hr hp, hp.isFirstDivergence⟩
  · intro la lb hla hlb hlanes
    obtain ⟨hna, hga⟩ := loadBytes_some hla
    obtain ⟨hnb, hgb⟩ := loadBytes_some hlb
    have hab : la ≠ lb := fun h => hlanes ((neon_lanes_eq_iff hna hnb).2 h)
    obtain ⟨j, hj, _, hd, hbefore⟩ := ctz_movemask_cmpeq la lb 32 (by rw [hna, hnb])
      (by rw [hna]; decide) hab
    rw [hna] at hj
    have hne : mem (scan + j) ≠ mem (mtch + j) := by
      rw [hga j hj, hgb j hj]; exact hd
    have heq : ∀ i < j, mem (scan + i) = mem (mtch + i) := fun i hi => by
      rw [hga i (by omega), hgb i (by omega)]; exact hbefore i hi
    have hsome : ∀ t, t < 16 → ∃ x y, mem (scan + t) = some x ∧ mem (mtch + t) = some y :=
      fun t ht => by
        rw [hga t ht, hgb t ht, List.getElem?_eq_getElem (by omega),
          List.getElem?_eq_getElem (by omega)]
        exact ⟨_, _, rfl, rfl⟩
    refine ⟨j, hj, ?_, hne, heq⟩
    apply windowScan_found mem scan mtch 16 0 j (Nat.zero_le _) (by omega)
    · intro t _ ht
      obtain ⟨x, y, hx, hy⟩ := hsome t (by omega)
      have := heq t ht
      rw [hx, hy] at this
      exact ⟨x, hx, by rw [hy, ← this]⟩
    · obtain ⟨x, y, hx, hy⟩ := hsome j hj
      exact ⟨x, y, hx, hy, fun hxy => hne (by rw [hx, hy, hxy])⟩

/-- Instance of C2 on a memory whose only mismatch sits inside the first 16-byte window:
`scan = 40`, `match = 0`, `end = safe_end = 80`, differing byte at address 45. -/
theorem neon_returns_first_divergence_witness :
    (40 ≤ 80 ∧ 80 ≤ 80 ∧ Readable (spikeMem 45) 40 0 80) ∧
    ((∃ p, NEON.GetMatch_SIMD (spikeMem 45) 40 0 80 80 = some p ∧
      IsFirstDivergence (spikeMem 45) 40 0 80 p) ∧
    ∀ v_scan v_match, loadBytes (spikeMem 45) 40 16 = some v_scan →
      loadBytes (spikeMem 45) 0 16 = some v_match →
      lane_u64_0 (cmpeq_epi8 v_scan v_match) &&& lane_u64_1 (cmpeq_epi8 v_scan v_match)
        ≠ 0xFFFFFFFFFFFFFFFF →
      ∃ j, j < 16 ∧ NEON.windowScan (spikeMem 45) 40 0 16 0 = some (some (40 + j)) ∧
        spikeMem 45 (40 + j) ≠ spikeMem 45 (0 + j) ∧
        ∀ i < j, spikeMem 45 (40 + i) = spikeMem 45 (0 + i)) :=
  ⟨⟨by decide, by decide, by decide⟩,
    neon_returns_first_divergence (spikeMem 45) 40 0 80 80 (by decide) (by decide) (by decide)⟩

/-- C3, as stated, fails for the scalar variant.  On sixteen equal bytes with `scan = 8`,
`match = 0`, `end = safe_end = 12` the preconditions hold and every byte of `[scan, end)`
equals its counterpart, yet the 8-byte loop compares the words at 8 and 0, finds them
equal, and the function returns 16, which is past `end`; the smallest stopping position
is 12. -/
theorem scalar_first_divergence_counterexample :
    (8 ≤ 12 ∧ 12 ≤ 12 ∧ Readable (bufMem sixteenA) 8 0 12) ∧
    (∀ a < 12, 8 ≤ a → bufMem sixteenA a = bufMem sixteenA (0 + (a - 8))) ∧
    Scalar.GetMatch_SIMD (bufMem sixteenA) 8 0 12 12 = some 16 ∧
    ¬ IsFirstDivergence (bufMem sixteenA) 8 0 12 16 ∧
    IsFirstDivergence (bufMem sixteenA) 8 0 12 12 := by
  refine ⟨⟨by decide, by decide, by decide⟩, by decide, ?_, by decide, by decide⟩
  simp [Scalar.GetMatch_SIMD, byteLoop, load_u64, loadBytes, bufMem, sixteenA, leValue]

/-- C3, amended.  Scalar variant of `GetMatch_SIMD`: when `scan ≤ end`, `safe_end ≤ end`,
every 8-byte word starting at `scan + 8 * j` below `safe_end` ends at or before `end`, and
the bytes of `[scan, end)` and their counterparts are readable, the function returns the
smallest `p ≥ scan` such that `p = end` or the byte at `p` differs from its counterpart; in
particular the result is `end` when every byte of `[scan, end)` equals its counterpart. -/
theorem scalar_returns_first_divergence (mem : Mem) (scan mtch end_ safe_end : Nat)
    (h1 : scan ≤ end_) (_h2 : safe_end ≤ end_) (hfit : WordsFit scan end_ safe_end)
    (hr : Readable mem scan mtch end_) :
    ∃ p, Scalar.GetMatch_SIMD mem scan mtch end_ safe_end = some p ∧
      IsFirstDivergence mem scan mtch end_ p ∧
      ((∀ a < end_, scan ≤ a → mem a = mem (mtch + (a - scan))) → p = end_) := by
  obtain ⟨p, hp⟩ := exists_stopsAt h1 hr
  exact ⟨p, scalar_getMatch_of_wordsFit hfit hr hp, hp.isFirstDivergence,
    hp.isFirstDivergence.eq_end h1⟩

/-- Instance of amended C3: `scan = 40`, `match = 0`, `end = 80`, `safe_end = 73`, differing
byte at address 61. -/
theorem scalar_returns_first_divergence_witness :
    (40 ≤ 80 ∧ 73 ≤ 80 ∧ WordsFit 40 80 73 ∧ Readable (spikeMem 61) 40 0 80) ∧
    ∃ p, Scalar.GetMatch_SIMD (spikeMem 61) 40 0 80 73 = some p ∧
      IsFirstDivergence (spikeMem 61) 40 0 80 p ∧
      ((∀ a < 80, 40 ≤ a → spikeMem 61 a = spikeMem 61 (0 + (a - 40))) → p = 80) :=
  ⟨⟨by decide, by decide, by decide, by decide⟩,
    scalar_returns_first_divergence (spikeMem 61) 40 0 80 73 (by decide) (by decide)
      (by decide) (by decide)⟩

/-- C4, as stated, fails.  On sixteen equal bytes with `scan = 4`, `match = 0`,
`end = safe_end = 8` the NEON and SSE2 variants return 8 while the scalar variant
returns 12. -/
theorem cross_strategy_counterexample :
    (4 ≤ 8 ∧ 8 ≤ 8 ∧ Readable (bufMem sixteenA) 4 0 8) ∧
    NEON.GetMatch_SIMD (bufMem sixteenA) 4 0 8 8 = some 8 ∧
    SSE2.GetMatch_SIMD (bufMem sixteenA) 4 0 8 8 = some 8 ∧
    Scalar.GetMatch_SIMD (bufMem sixteenA) 4 0 8 8 = some 12 := by
  refine ⟨⟨by decide, by decide, by decide⟩, ?_, ?_, ?_⟩
  · simp [NEON.GetMatch_SIMD, loop8, byteLoop, load_u64, loadBytes, bufMem, sixteenA, leValue]
  · simp [SSE2.GetMatch_SIMD, loop8, byteLoop, load_u64, loadBytes, bufMem, sixteenA, leValue]
  · simp [Scalar.GetMatch_SIMD, byteLoop, load_u64, loadBytes, bufMem, sixteenA, leValue]

/-- C4, amended.  Cross-strategy equivalence: when `scan ≤ end`, `safe_end ≤ end`, every
8-byte word starting at `scan + 8 * j` below `safe_end` ends at or before `end`, and the
bytes of `[scan, end)` and their counterparts are readable, the NEON, SSE2 and scalar
variants all return one and the same position. -/
theorem cross_strategy_equivalence (mem : Mem) (scan mtch end_ safe_end : Nat)
    (h1 : scan ≤ end_) (h2 : safe_end ≤ end_) (hfit : WordsFit scan end_ safe_end)
    (hr : Readable mem scan mtch end_) :
    ∃ p, NEON.GetMatch_SIMD mem scan mtch end_ safe_end = some p ∧
      SSE2.GetMatch_SIMD mem scan mtch end_ safe_end = some p ∧
      Scalar.GetMatch_SIMD mem scan mtch end_ safe_end = some p := by
  obtain ⟨p, hp⟩ := exists_stopsAt h1 hr
  exact ⟨p, neon_getMatch_of_readable h2 hr hp, sse2_getMatch_of_readable h2 hr hp,
    scalar_getMatch_of_wordsFit hfit hr hp⟩

/-- Instance of amended C4: `scan = 40`, `match = 0`, `end = 80`, `safe_end = 73`, differing
byte at address 70. -/
theorem cross_strategy_equivalence_witness :
    (40 ≤ 80 ∧ 73 ≤ 80 ∧ WordsFit 40 80 73 ∧ Readable (spikeMem 70) 40 0 80) ∧
    ∃ p, NEON.GetMatch_SIMD (spikeMem 70) 40 0 80 73 = some p ∧
      SSE2.GetMatch_SIMD (spikeMem 70) 40 0 80 73 = some p ∧
      Scalar.GetMatch_SIMD (spikeMem 70) 40 0 80 73 = some p :=
  ⟨⟨by decide, by decide, by decide, by decide⟩,
    cross_strategy_equivalence (spikeMem 70) 40 0 80 73 (by decide) (by decide)
      (by decide) (by decide)⟩

/-- C5, as stated, fails for the scalar variant.  On sixteen equal bytes with `scan = 8`,
`match = 0`, `end = 10`, `safe_end = 9` the preconditions hold, the buffer goes on matching
past `end`, and the function returns 16, which exceeds `end`. -/
theorem boundary_respect_counterexample :
    (8 ≤ 10 ∧ 9 ≤ 10 ∧ Readable (bufMem sixteenA) 8 0 10) ∧
    Scalar.GetMatch_SIMD (bufMem sixteenA) 8 0 10 9 = some 16 ∧ ¬ (16 ≤ 10) := by
  refine ⟨⟨by decide, by decide, by decide⟩, ?_, by decide⟩
  simp [Scalar.GetMatch_SIMD, byteLoop, load_u64, loadBytes, bufMem, sixteenA, leValue]

/-- C5, amended.  Boundary respect: when `scan ≤ end`, `safe_end ≤ end` and the bytes of
`[scan, end)` and their counterparts are readable, whatever the memory holds at and beyond
`end`, the SSE2 and NEON variants return a position `r` with `scan ≤ r ≤ end`; the scalar
variant does so when, in addition, every 8-byte word starting at `scan + 8 * j` below
`safe_end` ends at or before `end`. -/
theorem boundary_respect (mem : Mem) (scan mtch end_ safe_end : Nat)
    (h1 : scan ≤ end_) (h2 : safe_end ≤ end_) (hr : Readable mem scan mtch end_) :
    (∃ r, SSE2.GetMatch_SIMD mem scan mtch end_ safe_end = some r ∧ scan ≤ r ∧ r ≤ end_) ∧
    (∃ r, NEON.GetMatch_SIMD mem scan mtch end_ safe_end = some r ∧ scan ≤ r ∧ r ≤ end_) ∧
    (WordsFit scan end_ safe_end →
      ∃ r, Scalar.GetMatch_SIMD mem scan mtch end_ safe_end = some r ∧ scan ≤ r ∧ r ≤ end_) := by
  obtain ⟨p, hp⟩ := exists_stopsAt h1 hr
  exact ⟨⟨p, sse2_getMatch_of_readable h2 hr hp, hp.1, hp.2.1⟩,
    ⟨p, neon_getMatch_of_readable h2 hr hp, hp.1, hp.2.1⟩,
    fun hfit => ⟨p, scalar_getMatch_of_wordsFit hfit hr hp, hp.1, hp.2.1⟩⟩

/-- Instance of amended C5 on a memory that is readable and goes on matching past `end`:
`scan = 40`, `match = 0`, `end = 81`, `safe_end = 74`, all bytes below 200 equal. -/
theorem boundary_respect_witness :
    (40 ≤ 81 ∧ 74 ≤ 81 ∧ Readable (spikeMem 200) 40 0 81 ∧ WordsFit 40 81 74) ∧
    (∃ r, SSE2.GetMatch_SIMD (spikeMem 200) 40 0 81 74 = some r ∧ 40 ≤ r ∧ r ≤ 81) ∧
    (∃ r, NEON.GetMatch_SIMD (spikeMem 200) 40 0 81 74 = some r ∧ 40 ≤ r ∧ r ≤ 81) ∧
    (∃ r, Scalar.GetMatch_SIMD (spikeMem 200) 40 0 81 74 = some r ∧ 40 ≤ r ∧ r ≤ 81) :=
  ⟨⟨by decide, by decide, by decide, by decide⟩,
    (boundary_respect (spikeMem 200) 40 0 81 74 (by decide) (by decide) (by decide)).1,
    (boundary_respect (spikeMem 200) 40 0 81 74 (by decide) (by decide) (by decide)).2.1,
    (boundary_respect (spikeMem 200) 40 0 81 74 (by decide) (by decide) (by decide)).2.2
      (by decide)⟩

/-- C6, as stated, fails for the scalar variant.  In a buffer of twelve bytes with
`scan = 8`, `match = 0`, `end = safe_end = 12` the preconditions hold and the first
differing index is `k = 1`; the NEON and SSE2 variants return `scan + 1 = 9`, but the
scalar variant first loads the 8-byte word at `scan`, which covers the addresses 8 to 15
and runs past the end of the buffer, so its result is undefined. -/
theorem first_divergence_counterexample :
    (8 ≤ 12 ∧ 12 ≤ 12 ∧ 1 < 12 - 8 ∧ Readable (bufMem twelveAB) 8 0 12) ∧
    ((∀ i < 1, bufMem twelveAB (8 + i) = bufMem twelveAB (0 + i)) ∧
      bufMem twelveAB (8 + 1) ≠ bufMem twelveAB (0 + 1)) ∧
    SSE2.GetMatch_SIMD (bufMem twelveAB) 8 0 12 12 = some (8 + 1) ∧
    NEON.GetMatch_SIMD (bufMem twelveAB) 8 0 12 12 = some (8 + 1) ∧
    Scalar.GetMatch_SIMD (bufMem twelveAB) 8 0 12 12 = none := by
  refine ⟨⟨by decide, by decide, by decide, by decide⟩, ⟨by decide, by decide⟩, ?_, ?_, ?_⟩
  · simp [SSE2.GetMatch_SIMD, loop8, byteLoop, load_u64, loadBytes, bufMem, twelveAB]
  · simp [NEON.GetMatch_SIMD, loop8, byteLoop, load_u64, loadBytes, bufMem, twelveAB]
  · simp [Scalar.GetMatch_SIMD, load_u64, loadBytes, bufMem, twelveAB]

/-- C6, amended.  First-divergence exactness: when `scan ≤ end`, `safe_end ≤ end`, the
bytes of `[scan, end)` and their counterparts are readable, and `k < end - scan` is the
first index at which the byte at `scan + k` differs from the byte at `match + k`, the NEON
and SSE2 variants return exactly `scan + k`, wherever `k` lies relative to the 16-byte and
8-byte windows; the scalar variant returns exactly `scan + k` if, and only if, every
8-byte word it loads on the way (those starting at `scan + 8 * j` below `safe_end` with
`8 * j ≤ k`) is readable at `scan` and at `match`. -/
theorem first_divergence_exact (mem : Mem) (scan mtch end_ safe_end k : Nat)
    (_h1 : scan ≤ end_) (h2 : safe_end ≤ end_) (hk : k < end_ - scan)
    (hr : Readable mem scan mtch end_)
    (heq : ∀ i < k, mem (scan + i) = mem (mtch + i))
    (hne : mem (scan + k) ≠ mem (mtch + k)) :
    SSE2.GetMatch_SIMD mem scan mtch end_ safe_end = some (scan + k) ∧
    NEON.GetMatch_SIMD mem scan mtch end_ safe_end = some (scan + k) ∧
    (Scalar.GetMatch_SIMD mem scan mtch end_ safe_end = some (scan + k) ↔
      ScalarWordsReadable mem scan mtch safe_end k) := by
  have hp : StopsAt mem scan mtch end_ (scan + k) := StopsAt.of_readable_diff hk hr heq hne
  refine ⟨sse2_getMatch_of_readable h2 hr hp, neon_getMatch_of_readable h2 hr hp, ?_, ?_⟩
  · intro hres j _ hj hjk i hi
    exact scalar_words_of_some _ scan mtch _ rfl hp hres j hj (by omega) i hi
  · intro hw
    refine scalar_getMatch_stopsAt _ scan mtch rfl hp ?_ ?_
    · intro j hj hjp i hi
      exact hw j (by omega) hj (by omega) i hi
    · intro hpe
      omega

/-- Instances of amended C6.  In a buffer of eighty bytes with `scan = 40`, `match = 0`,
`end = safe_end = 80` and the first difference at index 21, inside the second 16-byte
window and the third 8-byte word, every variant returns `40 + 21`.  In the buffer
`"abcdefgh" ++ "abcXefgh"` with `scan` at offset 0, `match` at offset 8, `end` at offset
16 and `safe_end = 1`, every variant returns offset 3, an extension of length 3. -/
theorem first_divergence_exact_witness :
    (40 ≤ 80 ∧ 80 ≤ 80 ∧ 21 < 80 - 40 ∧ Readable (bufMem eightyBytes) 40 0 80 ∧
      (∀ i < 21, bufMem eightyBytes (40 + i) = bufMem eightyBytes (0 + i)) ∧
      bufMem eightyBytes (40 + 21) ≠ bufMem eightyBytes (0 + 21) ∧
      ScalarWordsReadable (bufMem eightyBytes) 40 0 80 21) ∧
    (SSE2.GetMatch_SIMD (bufMem eightyBytes) 40 0 80 80 = some (40 + 21) ∧
      NEON.GetMatch_SIMD (bufMem eightyBytes) 40 0 80 80 = some (40 + 21) ∧
      Scalar.GetMatch_SIMD (bufMem eightyBytes) 40 0 80 80 = some (40 + 21)) ∧
    (SSE2.GetMatch_SIMD (bufMem scenario) 0 8 16 1 = some 3 ∧
      NEON.GetMatch_SIMD (bufMem scenario) 0 8 16 1 = some 3 ∧
      Scalar.GetMatch_SIMD (bufMem scenario) 0 8 16 1 = some 3) := by
  have h := first_divergence_exact (bufMem eightyBytes) 40 0 80 80 21 (by decide) (by decide)
    (by decide) (by decide) (by decide) (by decide)
  refine ⟨⟨by decide, by decide, by decide, by decide, by decide, by decide, by decide⟩,
    ⟨h.1, h.2.1, h.2.2.2 (by decide)⟩, ?_, ?_, ?_⟩
  · simp [SSE2.GetMatch_SIMD, loop8, byteLoop, load_u64, loadBytes, bufMem, scenario]
  · simp [NEON.GetMatch_SIMD, loop8, byteLoop, load_u64, loadBytes, bufMem, scenario]
  · simp [Scalar.GetMatch_SIMD, byteLoop, load_u64, loadBytes, bufMem, scenario, leValue]
    decide

/-- C7. The NEON and SSE2 variants read nothing at or beyond `end`: when `scan ≤ end`,
`safe_end ≤ end` and the bytes of `[scan, end)` and their counterparts are readable, making
every other address unreadable (so that only the scan-side offsets of `[scan, end)` and the
corresponding match-side offsets remain) changes neither result, and both variants still
return a position: no read outside those bytes occurs. -/
theorem vector_reads_within_end (mem : Mem) (scan mtch end_ safe_end : Nat)
    (h1 : scan ≤ end_) (h2 : safe_end ≤ end_) (hr : Readable mem scan mtch end_) :
    (SSE2.GetMatch_SIMD (restrictMem mem scan mtch end_) scan mtch end_ safe_end
        = SSE2.GetMatch_SIMD mem scan mtch end_ safe_end ∧
      (SSE2.GetMatch_SIMD (restrictMem mem scan mtch end_) scan mtch end_ safe_end).isSome) ∧
    (NEON.GetMatch_SIMD (restrictMem mem scan mtch end_) scan mtch end_ safe_end
        = NEON.GetMatch_SIMD mem scan mtch end_ safe_end ∧
      (NEON.GetMatch_SIMD (restrictMem mem scan mtch end_) scan mtch end_ safe_end).isSome) := by
  obtain ⟨p, hp⟩ := exists_stopsAt h1 hr
  have s1 := sse2_getMatch_of_readable h2 hr hp
  have s2 := sse2_getMatch_of_readable h2 hr.restricted hp.on_restrictMem
  have n1 := neon_getMatch_of_readable h2 hr hp
  have n2 := neon_getMatch_of_readable h2 hr.restricted hp.on_restrictMem
  rw [s1, s2, n1, n2]
  exact ⟨⟨rfl, rfl⟩, rfl, rfl⟩

/-- Instance of C7: `scan = 40`, `match = 0`, `end = safe_end = 80`, differing byte at
address 77, so the 16-byte, the 8-byte and the byte loop all run. -/
theorem vector_reads_within_end_witness :
    (40 ≤ 80 ∧ 80 ≤ 80 ∧ Readable (spikeMem 77) 40 0 80) ∧
    ((SSE2.GetMatch_SIMD (restrictMem (spikeMem 77) 40 0 80) 40 0 80 80
        = SSE2.GetMatch_SIMD (spikeMem 77) 40 0 80 80 ∧
      (SSE2.GetMatch_SIMD (restrictMem (spikeMem 77) 40 0 80) 40 0 80 80).isSome) ∧
    (NEON.GetMatch_SIMD (restrictMem (spikeMem 77) 40 0 80) 40 0 80 80
        = NEON.GetMatch_SIMD (spikeMem 77) 40 0 80 80 ∧
      (NEON.GetMatch_SIMD (restrictMem (spikeMem 77) 40 0 80) 40 0 80 80).isSome)) :=
  ⟨⟨by decide, by decide, by decide⟩,
    vector_reads_within_end (spikeMem 77) 40 0 80 80 (by decide) (by decide) (by decide)⟩

/-- C8, as stated, fails.  With a buffer of twelve equal bytes, valid exactly up to
`end = 12`, and `scan = 8`, `match = 0`, `safe_end = 12`, the preconditions hold, and the
first iteration of the 8-byte loop loads the word at `scan`, which covers the addresses 8
to 15: the read runs past `end` into unreadable memory. -/
theorem scalar_reads_counterexample :
    (8 ≤ 12 ∧ 12 ≤ 12 ∧ Readable (bufMem twelveA) 8 0 12) ∧
    load_u64 (bufMem twelveA) 8 = none ∧
    Scalar.GetMatch_SIMD (bufMem twelveA) 8 0 12 12 = none := by
  refine ⟨⟨by decide, by decide, by decide⟩, by decide, ?_⟩
  simp [Scalar.GetMatch_SIMD, load_u64, loadBytes, bufMem, twelveA]

/-- C8, amended.  The scalar variant reads nothing at or beyond `end` when, beside
`scan ≤ end` and `safe_end ≤ end`, every 8-byte word starting at `scan + 8 * j` below
`safe_end` ends at or before `end`: with the bytes of `[scan, end)` and their counterparts
readable, making every other address unreadable does not change the result, and the
function still returns a position. -/
theorem scalar_reads_within_end (mem : Mem) (scan mtch end_ safe_end : Nat)
    (h1 : scan ≤ end_) (_h2 : safe_end ≤ end_) (hfit : WordsFit scan end_ safe_end)
    (hr : Readable mem scan mtch end_) :
    Scalar.GetMatch_SIMD (restrictMem mem scan mtch end_) scan mtch end_ safe_end
        = Scalar.GetMatch_SIMD mem scan mtch end_ safe_end ∧
      (Scalar.GetMatch_SIMD (restrictMem mem scan mtch end_) scan mtch end_ safe_end).isSome := by
  obtain ⟨p, hp⟩ := exists_stopsAt h1 hr
  rw [scalar_getMatch_of_wordsFit hfit hr hp,
    scalar_getMatch_of_wordsFit hfit hr.restricted hp.on_restrictMem]
  exact ⟨rfl, rfl⟩

/-- Instance of amended C8: `scan = 40`, `match = 0`, `end = 80`, `safe_end = 73`, all
bytes equal. -/
theorem scalar_reads_within_end_witness :
    (40 ≤ 80 ∧ 73 ≤ 80 ∧ WordsFit 40 80 73 ∧ Readable (spikeMem 200) 40 0 80) ∧
    (Scalar.GetMatch_SIMD (restrictMem (spikeMem 200) 40 0 80) 40 0 80 73
        = Scalar.GetMatch_SIMD (spikeMem 200) 40 0 80 73 ∧
      (Scalar.GetMatch_SIMD (restrictMem (spikeMem 200) 40 0 80) 40 0 80 73).isSome) :=
  ⟨⟨by decide, by decide, by decide, by decide⟩,
    scalar_reads_within_end (spikeMem 200) 40 0 80 73 (by decide) (by decide) (by decide)
      (by decide)⟩

/-- C9. Zero-length extension: for every memory, even one in which no address is readable,
every position `p`, every match position `q` and every `safe_end ≤ p`, each of the three
variants called with `scan = p` and `end = p` returns `p`; as a load from an unreadable
address would make the result `none`, no byte is read. -/
theorem zero_length_extension (mem : Mem) (p q safe_end : Nat) (h : safe_end ≤ p) :
    SSE2.GetMatch_SIMD mem p q p safe_end = some p ∧
    NEON.GetMatch_SIMD mem p q p safe_end = some p ∧
    Scalar.GetMatch_SIMD mem p q p safe_end = some p := by
  refine ⟨?_, ?_, ?_⟩
  · rw [SSE2.GetMatch_SIMD, dif_neg (by omega), loop8, dif_neg (by omega), byteLoop,
      dif_neg (by omega)]
  · rw [NEON.GetMatch_SIMD, dif_neg (by omega), loop8, dif_neg (by omega), byteLoop,
      dif_neg (by omega)]
  · rw [Scalar.GetMatch_SIMD, dif_neg (by omega), byteLoop, dif_neg (by omega)]

/-- Instance of C9 on the memory in which nothing is readable: `p = 5`, `q = 2`,
`safe_end = 3`. -/
theorem zero_length_extension_witness :
    3 ≤ 5 ∧
    (SSE2.GetMatch_SIMD (fun _ => none) 5 2 5 3 = some 5 ∧
      NEON.GetMatch_SIMD (fun _ => none) 5 2 5 3 = some 5 ∧
      Scalar.GetMatch_SIMD (fun _ => none) 5 2 5 3 = some 5) :=
  ⟨by decide, zero_length_extension (fun _ => none) 5 2 3 (by decide)⟩

/-! ## Profiling counters: the claims -/

/-- C10. Counter correctness, in unsigned 64-bit arithmetic: starting from zeroed counters,
after any sequence of `n` `PROFILE_START` / `PROFILE_END` pairs on one name with clock
readings `(s_i, e_i)`, the call count of that name is `n` modulo `2 ^ 64` and its elapsed
total is the sum of the `n` differences `e_i - s_i` modulo `2 ^ 64`; when `n`, and the sum
of the intervals of readings with `s_i ≤ e_i`, stay below `2 ^ 64`, the count is exactly
`n` and the total exactly that sum.  From any counter state one `PROFILE_END` adds `e - s`
to the elapsed total and 1 to the call count of its name, modulo `2 ^ 64`, and exactly
when the sum stays below `2 ^ 64`. -/
theorem counter_correctness (name : Name) (rs : List (Nat × Nat)) :
    ((runPairs name Counters.zero rs).calls name = rs.length % 2 ^ 64 ∧
      (((runPairs name Counters.zero rs).time_us name : Nat) : Int)
        = (rs.map (fun r => (r.2 : Int) - (r.1 : Int))).sum % 2 ^ 64) ∧
    (rs.length < 2 ^ 64 → (∀ r ∈ rs, r.1 ≤ r.2) →
      (rs.map (fun r => r.2 - r.1)).sum < 2 ^ 64 →
      (runPairs name Counters.zero rs).calls name = rs.length ∧
      (runPairs name Counters.zero rs).time_us name = (rs.map (fun r => r.2 - r.1)).sum) ∧
    ∀ (c : Counters) (s e : Nat),
      ((PROFILE_END name c s e).calls name = (c.calls name + 1) % 2 ^ 64 ∧
        (((PROFILE_END name c s e).time_us name : Nat) : Int)
          = ((c.time_us name : Int) + ((e : Int) - (s : Int))) % 2 ^ 64) ∧
      (c.calls name + 1 < 2 ^ 64 → (PROFILE_END name c s e).calls name = c.calls name + 1) ∧
      (s ≤ e → c.time_us name + (e - s) < 2 ^ 64 →
        (PROFILE_END name c s e).time_us name = c.time_us name + (e - s)) := by
  have h0c : Counters.zero.calls name = 0 := by cases name <;> rfl
  have h0t : Counters.zero.time_us name = 0 := by cases name <;> rfl
  have hrun := runPairs_counters name rs Counters.zero (by rw [h0c]; exact Nat.two_pow_pos 64)
    (by rw [h0t]; exact Nat.two_pow_pos 64)
  rw [h0c, h0t, Nat.zero_add, Nat.zero_add] at hrun
  refine ⟨⟨hrun.1, ?_⟩, ?_, ?_⟩
  · rw [hrun.2]
    have := sum_sub64_int rs
    omega
  · intro hn hle hsum
    refine ⟨by rw [hrun.1]; exact Nat.mod_eq_of_lt hn, ?_⟩
    rw [hrun.2, sum_sub64_nat rs hle hsum]
    exact Nat.mod_eq_of_lt hsum
  · intro c s e
    have hcalls := calls_PROFILE_END name c s e
    have htime := time_us_PROFILE_END name c s e
    unfold add64 at hcalls htime
    have hint := sub64_int e s
    refine ⟨⟨hcalls, ?_⟩, ?_, ?_⟩
    · rw [htime]
      omega
    · intro h
      rw [hcalls]
      exact Nat.mod_eq_of_lt h
    · intro hle hlt
      rw [htime, sub64_eq_sub hle (by omega)]
      exact Nat.mod_eq_of_lt hlt

/-- Instance of C10: three pairs on `getmatch` from the zero counters, with readings
`(1, 5)`, `(10, 12)` and `(20, 27)`, leave 3 calls and `4 + 2 + 7 = 13` microseconds; and
one `PROFILE_END(hash)` with readings 10 and 25 takes the hash counters from 5 calls and
6 microseconds to 6 calls and 21 microseconds. -/
theorem counter_correctness_witness :
    ((runPairs Name.getmatch Counters.zero [(1, 5), (10, 12), (20, 27)]).calls Name.getmatch
        = 3 ∧
      (runPairs Name.getmatch Counters.zero [(1, 5), (10, 12), (20, 27)]).time_us
        Name.getmatch = 13) ∧
    ((PROFILE_END Name.hash ⟨1, 2, 3, 4, 5, 6⟩ 10 25).calls Name.hash = 6 ∧
      (PROFILE_END Name.hash ⟨1, 2, 3, 4, 5, 6⟩ 10 25).time_us Name.hash = 21) :=
  ⟨(counter_correctness Name.getmatch [(1, 5), (10, 12), (20, 27)]).2.1 (by decide)
      (by decide) (by decide),
    ((counter_correctness Name.hash []).2.2 ⟨1, 2, 3, 4, 5, 6⟩ 10 25).2.1 (by decide),
    ((counter_correctness Name.hash []).2.2 ⟨1, 2, 3, 4, 5, 6⟩ 10 25).2.2 (by decide)
      (by decide)⟩

/-! ## Step-counted loops agree with the loops -/

theorem byteLoopN_eq (mem : Mem) (e : Nat) : ∀ (fuel s m : Nat), e - s + 1 ≤ fuel →
    byteLoopN mem e fuel s m = some (byteLoop mem e s m) := by
  intro fuel
  induction fuel with
  | zero => intro s m h; omega
  | succ fuel ih =>
    intro s m h
    rw [byteLoopN, byteLoop]
    by_cases hc : s < e
    · simp only [hc, if_true, dite_true]
      cases hs : mem s with
      | none => rfl
      | some a =>
        cases hm : mem m with
        | none => rfl
        | some b =>
          by_cases hab : a = b
          · simp only [hab, if_true]
            exact ih (s + 1) (m + 1) (by omega)
          · simp only [hab, if_false]
    · simp only [hc, if_false, dite_false]

theorem loop8N_eq (mem : Mem) (e se : Nat) : ∀ (fuel s m : Nat),
    (se - s) + (e - s) + 2 ≤ fuel →
    loop8N mem e se fuel s m = some (loop8 mem e se s m) := by
  intro fuel
  induction fuel with
  | zero => intro s m h; omega
  | succ fuel ih =>
    intro s m h
    rw [loop8N, loop8]
    by_cases hc : s + 8 ≤ se
    · simp only [hc, if_true, dite_true]
      cases hs : load_u64 mem s with
      | none => rfl
      | some a =>
        cases hm : load_u64 mem m with
        | none => rfl
        | some b =>
          by_cases hab : a = b
          · simp only [hab, ne_eq, not_true_eq_false, if_false]
            exact ih (s + 8) (m + 8) (by omega)
          · simp only [ne_eq, hab, not_false_eq_true, if_true]
            exact byteLoopN_eq mem e fuel s m (by omega)
    · simp only [hc, if_false, dite_false]
      exact byteLoopN_eq mem e fuel s m (by omega)

theorem sse2_getMatchN_eq (mem : Mem) (e se : Nat) : ∀ (fuel s m : Nat),
    (se - s) + (e - s) + 3 ≤ fuel →
    SSE2.GetMatch_SIMD_N mem e se fuel s m = some (SSE2.GetMatch_SIMD mem s m e se) := by
  intro fuel
  induction fuel with
  | zero => intro s m h; omega
  | succ fuel ih =>
    intro s m h
    rw [SSE2.GetMatch_SIMD_N, SSE2.GetMatch_SIMD]
    by_cases hc : s + 16 ≤ se
    · simp only [hc, if_true, dite_true]
      cases hs : loadBytes mem s 16 with
      | none => rfl
      | some la =>
        cases hm : loadBytes mem m 16 with
        | none => rfl
        | some lb =>
          by_cases hmask : movemask_epi8 (cmpeq_epi8 la lb) = 0xFFFF
          · simp only [hmask, ne_eq, not_true_eq_false, if_false]
            exact ih (s + 16) (m + 16) (by omega)
          · simp only [ne_eq, hmask, not_false_eq_true, if_true]
            cases builtin_ctz (not32 (movemask_epi8 (cmpeq_epi8 la lb))) <;> rfl
    · simp only [hc, if_false, dite_false]
      exact loop8N_eq mem e se fuel s m (by omega)

theorem neon_getMatchN_eq (mem : Mem) (e se : Nat) : ∀ (fuel s m : Nat),
    (se - s) + (e - s) + 3 ≤ fuel →
    NEON.GetMatch_SIMD_N mem e se fuel s m = some (NEON.GetMatch_SIMD mem s m e se) := by
  intro fuel
  induction fuel with
  | zero => intro s m h; omega
  | succ fuel ih =>
    intro s m h
    rw [NEON.GetMatch_SIMD_N, NEON.GetMatch_SIMD]
    by_cases hc : s + 16 ≤ se
    · simp only [hc, if_true, dite_true]
      cases hs : loadBytes mem s 16 with
      | none => rfl
      | some la =>
        cases hm : loadBytes mem m 16 with
        | none => rfl
        | some lb =>
          by_cases hl : lane_u64_0 (cmpeq_epi8 la lb) &&& lane_u64_1 (cmpeq_epi8 la lb)
              = 0xFFFFFFFFFFFFFFFF
          · simp only [hl, ne_eq, not_true_eq_false, if_false]
            exact ih (s + 16) (m + 16) (by omega)
          · simp only [ne_eq, hl, not_false_eq_true, if_true]
            cases hw : NEON.windowScan mem s m 16 0 with
            | none => rfl
            | some r =>
              cases r with
              | none => exact ih (s + 16) (m + 16) (by omega)
              | some p => rfl
    · simp only [hc, if_false, dite_false]
      exact loop8N_eq mem e se fuel s m (by omega)

theorem scalar_getMatchN_eq (mem : Mem) (e se : Nat) : ∀ (fuel s m : Nat),
    (se - s) + (e - s) + 2 ≤ fuel →
    Scalar.GetMatch_SIMD_N mem e se fuel s m = some (Scalar.GetMatch_SIMD mem s m e se) := by
  intro fuel
  induction fuel with
  | zero => intro s m h; omega
  | succ fuel ih =>
    intro s m h
    rw [Scalar.GetMatch_SIMD_N, Scalar.GetMatch_SIMD]
    by_cases hc : s < se
    · simp only [hc, if_true, dite_true]
      cases hs : load_u64 mem s with
      | none => rfl
      | some a =>
        cases hm : load_u64 mem m with
        | none => rfl
        | some b =>
          by_cases hab : a = b
          · simp only [hab, if_true]
            exact ih (s + 8) (m + 8) (by omega)
          · simp only [hab, if_false]
            exact byteLoopN_eq mem e fuel s m (by omega)
    · simp only [hc, if_false, dite_false]
      exact byteLoopN_eq mem e fuel s m (by omega)

/-! ## NEON against SSE2 -/

theorem windowScan_of_loads {mem : Mem} {s m j : Nat} {la lb : List Byte}
    (hla : loadBytes mem s 16 = some la) (hlb : loadBytes mem m 16 = some lb) (hj : j < 16)
    (hd : la[j]? ≠ lb[j]?) (hbefore : ∀ i, i < j → la[i]? = lb[i]?) :
    NEON.windowScan mem s m 16 0 = some (some (s + j)) := by
  obtain ⟨hna, hga⟩ := loadBytes_some hla
  obtain ⟨hnb, hgb⟩ := loadBytes_some hlb
  have hsome : ∀ t, t < 16 → ∃ x y, mem (s + t) = some x ∧ mem (m + t) = some y :=
    fun t ht => by
      rw [hga t ht, hgb t ht, List.getElem?_eq_getElem (by omega),
        List.getElem?_eq_getElem (by omega)]
      exact ⟨_, _, rfl, rfl⟩
  apply windowScan_found mem s m 16 0 j (Nat.zero_le _) (by omega)
  · intro t _ ht
    obtain ⟨x, y, hx, hy⟩ := hsome t (by omega)
    have := hbefore t ht
    rw [← hga t (by omega), ← hgb t (by omega), hx, hy] at this
    exact ⟨x, hx, by rw [hy, ← this]⟩
  · obtain ⟨x, y, hx, hy⟩ := hsome j hj
    refine ⟨x, y, hx, hy, fun hxy => hd ?_⟩
    rw [← hga j hj, ← hgb j hj, hx, hy, hxy]

theorem neon_eq_sse2 (mem : Mem) (e se : Nat) : ∀ (n s m : Nat), se - s = n →
    NEON.GetMatch_SIMD mem s m e se = SSE2.GetMatch_SIMD mem s m e se := by
  intro n
  induction n using Nat.strong_induction_on with
  | _ n ih =>
    intro s m hn
    rw [NEON.GetMatch_SIMD, SSE2.GetMatch_SIMD]
    by_cases hc : s + 16 ≤ se
    · simp only [hc, dite_true]
      cases hla : loadBytes mem s 16 with
      | none => rfl
      | some la =>
        cases hlb : loadBytes mem m 16 with
        | none => rfl
        | some lb =>
          have hna := (loadBytes_some hla).1
          have hnb := (loadBytes_some hlb).1
          by_cases hab : la = lb
          · have hmask := (sse2_mask_eq_iff hna hnb).2 hab
            have hlanes := (neon_lanes_eq_iff hna hnb).2 hab
            simp only [hmask, hlanes, ne_eq, not_true_eq_false, if_false]
            exact ih (se - (s + 16)) (by omega) (s + 16) (m + 16) rfl
          · have hmask : movemask_epi8 (cmpeq_epi8 la lb) ≠ 0xFFFF :=
              fun hm => hab ((sse2_mask_eq_iff hna hnb).1 hm)
            have hlanes : lane_u64_0 (cmpeq_epi8 la lb) &&& lane_u64_1 (cmpeq_epi8 la lb)
                ≠ 0xFFFFFFFFFFFFFFFF :=
              fun hm => hab ((neon_lanes_eq_iff hna hnb).1 hm)
            obtain ⟨j, hj, hctz, hd, hbefore⟩ := sse2_ctz_mask hna hnb hab
            have hw := windowScan_of_loads hla hlb hj hd hbefore
            simp only [ne_eq, hmask, hlanes, not_false_eq_true, if_true, hctz, hw]
    · simp only [hc, dite_false]

/-! ## Report lemmas -/

theorem averagePerCall_eq {F : Type} (ops : DoubleOps F) (calls time_us : Nat) :
    averagePerCall ops calls time_us
      = some (if calls = 0 then ops.ofU64 0
          else ops.div (ops.ofU64 time_us) (ops.ofU64 calls)) := by
  unfold averagePerCall divU64
  by_cases h : calls = 0 <;> simp [h]

theorem percentage_eq {F : Type} (ops : DoubleOps F) (total time_us : Nat) :
    percentage ops total time_us
      = some (if total = 0 then ops.ofU64 0
          else ops.div (ops.mul (ops.ofU64 100) (ops.ofU64 time_us)) (ops.ofU64 total)) := by
  unfold percentage divU64
  by_cases h : total = 0 <;> simp [h]

theorem PROFILE_PRINT_eq {F : Type} (ops : DoubleOps F) (c : Counters) :
    PROFILE_PRINT ops c = some
      { getmatch_avg := if c.profile_getmatch_calls = 0 then ops.ofU64 0
          else ops.div (ops.ofU64 c.profile_getmatch_time_us)
            (ops.ofU64 c.profile_getmatch_calls)
        findlongest_avg := if c.profile_findlongest_calls = 0 then ops.ofU64 0
          else ops.div (ops.ofU64 c.profile_findlongest_time_us)
            (ops.ofU64 c.profile_findlongest_calls)
        hash_avg := if c.profile_hash_calls = 0 then ops.ofU64 0
          else ops.div (ops.ofU64 c.profile_hash_time_us) (ops.ofU64 c.profile_hash_calls)
        total := add64 (add64 c.profile_getmatch_time_us c.profile_findlongest_time_us)
          c.profile_hash_time_us
        total_seconds := ops.div
          (ops.ofU64 (add64 (add64 c.profile_getmatch_time_us c.profile_findlongest_time_us)
            c.profile_hash_time_us)) (ops.ofU64 1000000)
        getmatch_pct :=
          if add64 (add64 c.profile_getmatch_time_us c.profile_findlongest_time_us)
            c.profile_hash_time_us = 0 then ops.ofU64 0
          else ops.div (ops.mul (ops.ofU64 100) (ops.ofU64 c.profile_getmatch_time_us))
            (ops.ofU64 (add64 (add64 c.profile_getmatch_time_us c.profile_findlongest_time_us)
              c.profile_hash_time_us))
        findlongest_pct :=
          if add64 (add64 c.profile_getmatch_time_us c.profile_findlongest_time_us)
            c.profile_hash_time_us = 0 then ops.ofU64 0
          else ops.div (ops.mul (ops.ofU64 100) (ops.ofU64 c.profile_findlongest_time_us))
            (ops.ofU64 (add64 (add64 c.profile_getmatch_time_us c.profile_findlongest_time_us)
              c.profile_hash_time_us))
        hash_pct :=
          if add64 (add64 c.profile_getmatch_time_us c.profile_findlongest_time_us)
            c.profile_hash_time_us = 0 then ops.ofU64 0
          else ops.div (ops.mul (ops.ofU64 100) (ops.ofU64 c.profile_hash_time_us))
            (ops.ofU64 (add64 (add64 c.profile_getmatch_time_us c.profile_findlongest_time_us)
              c.profile_hash_time_us)) } := by
  unfold PROFILE_PRINT
  simp only [averagePerCall_eq, percentage_eq]
  simp [divU64]

/-! ## The remaining claims -/

/-- C11, as stated, fails.  With `profile_hash_time_us = 10` and a `PROFILE_START(hash)` /
`PROFILE_END(hash)` pair whose clock readings are 10 at the start and 3 at the end (the
wall clock stepped back), the unsigned difference is `2 ^ 64 - 7`, the sum wraps, and the
counter is 3 after the pair: it decreased. -/
theorem counter_monotonicity_counterexample :
    (profilePair Name.hash ⟨0, 0, 0, 0, 1, 10⟩ (10, 3)).time_us Name.hash = 3 ∧
    (Counters.mk 0 0 0 0 1 10).time_us Name.hash = 10 ∧
    ¬ ((Counters.mk 0 0 0 0 1 10).time_us Name.hash
        ≤ (profilePair Name.hash ⟨0, 0, 0, 0, 1, 10⟩ (10, 3)).time_us Name.hash) := by
  decide

/-- C11, amended.  Counter monotonicity: for every counter state and every
`PROFILE_START` / `PROFILE_END` pair on a name whose two additions do not wrap around
`2 ^ 64` (the interval added being the unsigned 64-bit difference of the two clock
readings), each of the six counters after the pair is greater than or equal to its value
before. -/
theorem counter_monotonicity (name other : Name) (c : Counters) (s e : Nat)
    (ht : c.time_us name + sub64 e s < 2 ^ 64) (hc : c.calls name + 1 < 2 ^ 64) :
    c.calls other ≤ (profilePair name c (s, e)).calls other ∧
    c.time_us other ≤ (profilePair name c (s, e)).time_us other := by
  cases name <;> cases other <;>
    simp only [profilePair, PROFILE_END, PROFILE_START, Counters.calls, Counters.time_us,
      add64] at ht hc ⊢ <;>
    first
      | exact ⟨Nat.le_refl _, Nat.le_refl _⟩
      | (rw [Nat.mod_eq_of_lt ht, Nat.mod_eq_of_lt hc]; exact ⟨by omega, by omega⟩)

/-- Instance of amended C11: the hash counters at 1 call and 10 microseconds, readings 10
and 25. -/
theorem counter_monotonicity_witness :
    ((Counters.mk 0 0 0 0 1 10).time_us Name.hash + sub64 25 10 < 2 ^ 64 ∧
      (Counters.mk 0 0 0 0 1 10).calls Name.hash + 1 < 2 ^ 64) ∧
    ((Counters.mk 0 0 0 0 1 10).calls Name.hash
        ≤ (profilePair Name.hash ⟨0, 0, 0, 0, 1, 10⟩ (10, 25)).calls Name.hash ∧
      (Counters.mk 0 0 0 0 1 10).time_us Name.hash
        ≤ (profilePair Name.hash ⟨0, 0, 0, 0, 1, 10⟩ (10, 25)).time_us Name.hash) :=
  ⟨⟨by decide, by decide⟩,
    counter_monotonicity Name.hash Name.hash ⟨0, 0, 0, 0, 1, 10⟩ 10 25 (by decide) (by decide)⟩

/-- C12. Zero-division guard: for every counter state and every interpretation of the
`double` operations, `PROFILE_PRINT` evaluates no quotient with a zero divisor (it yields
its report); the average of a path is `0.0` when its call count is zero and
`elapsed / calls` otherwise; every percentage is `0.0` when the grand total is zero and
`100 * elapsed / total` otherwise; and on the all-zero counters the three averages and the
three percentages are `0.0`. -/
theorem zero_division_guard {F : Type} (ops : DoubleOps F) (c : Counters) :
    (∃ r, PROFILE_PRINT ops c = some r ∧
      r.getmatch_avg = (if c.profile_getmatch_calls = 0 then ops.ofU64 0
        else ops.div (ops.ofU64 c.profile_getmatch_time_us)
          (ops.ofU64 c.profile_getmatch_calls)) ∧
      r.findlongest_avg = (if c.profile_findlongest_calls = 0 then ops.ofU64 0
        else ops.div (ops.ofU64 c.profile_findlongest_time_us)
          (ops.ofU64 c.profile_findlongest_calls)) ∧
      r.hash_avg = (if c.profile_hash_calls = 0 then ops.ofU64 0
        else ops.div (ops.ofU64 c.profile_hash_time_us) (ops.ofU64 c.profile_hash_calls)) ∧
      r.total = add64 (add64 c.profile_getmatch_time_us c.profile_findlongest_time_us)
        c.profile_hash_time_us ∧
      r.getmatch_pct = (if r.total = 0 then ops.ofU64 0
        else ops.div (ops.mul (ops.ofU64 100) (ops.ofU64 c.profile_getmatch_time_us))
          (ops.ofU64 r.total)) ∧
      r.findlongest_pct = (if r.total = 0 then ops.ofU64 0
        else ops.div (ops.mul (ops.ofU64 100) (ops.ofU64 c.profile_findlongest_time_us))
          (ops.ofU64 r.total)) ∧
      r.hash_pct = (if r.total = 0 then ops.ofU64 0
        else ops.div (ops.mul (ops.ofU64 100) (ops.ofU64 c.profile_hash_time_us))
          (ops.ofU64 r.total))) ∧
    (∃ r, PROFILE_PRINT ops Counters.zero = some r ∧
      r.getmatch_avg = ops.ofU64 0 ∧ r.findlongest_avg = ops.ofU64 0 ∧
      r.hash_avg = ops.ofU64 0 ∧ r.getmatch_pct = ops.ofU64 0 ∧
      r.findlongest_pct = ops.ofU64 0 ∧ r.hash_pct = ops.ofU64 0) :=
  ⟨⟨_, PROFILE_PRINT_eq ops c, rfl, rfl, rfl, rfl, rfl, rfl, rfl⟩,
    ⟨_, PROFILE_PRINT_eq ops Counters.zero, rfl, rfl, rfl, rfl, rfl, rfl⟩⟩

/-- C13. Termination: on every memory and every input `(scan, match, end, safe_end)`, with
no precondition, each of the three variants returns within
`(safe_end - scan) + (end - scan) + 3` evaluations of a loop condition: run step-counted
with that much fuel, or more, it does not run out, and it yields the result of the
function defined by well-founded recursion. -/
theorem getMatch_terminates (mem : Mem) (scan mtch end_ safe_end extra : Nat) :
    SSE2.GetMatch_SIMD_N mem end_ safe_end
        ((safe_end - scan) + (end_ - scan) + 3 + extra) scan mtch
      = some (SSE2.GetMatch_SIMD mem scan mtch end_ safe_end) ∧
    NEON.GetMatch_SIMD_N mem end_ safe_end
        ((safe_end - scan) + (end_ - scan) + 3 + extra) scan mtch
      = some (NEON.GetMatch_SIMD mem scan mtch end_ safe_end) ∧
    Scalar.GetMatch_SIMD_N mem end_ safe_end
        ((safe_end - scan) + (end_ - scan) + 3 + extra) scan mtch
      = some (Scalar.GetMatch_SIMD mem scan mtch end_ safe_end) :=
  ⟨sse2_getMatchN_eq mem end_ safe_end _ scan mtch (by omega),
    neon_getMatchN_eq mem end_ safe_end _ scan mtch (by omega),
    scalar_getMatchN_eq mem end_ safe_end _ scan mtch (by omega)⟩

/-- C14. The NEON and SSE2 variants are functionally identical: on every memory and every
`(scan, match, end, safe_end)` they return the same position, and are undefined together.
For the two vectors loaded at `scan` and `match`, the SSE2 test `mask != 0xFFFF` holds
exactly when the NEON test on `low & high` holds, and then the trailing-zero count of the
inverted mask is the offset at which the linear scan of the window returns. -/
theorem neon_sse2_identical (mem : Mem) (scan mtch end_ safe_end : Nat) :
    NEON.GetMatch_SIMD mem scan mtch end_ safe_end
      = SSE2.GetMatch_SIMD mem scan mtch end_ safe_end ∧
    ∀ v_scan v_match, loadBytes mem scan 16 = some v_scan →
      loadBytes mem mtch 16 = some v_match →
      (movemask_epi8 (cmpeq_epi8 v_scan v_match) ≠ 0xFFFF ↔
        lane_u64_0 (cmpeq_epi8 v_scan v_match) &&& lane_u64_1 (cmpeq_epi8 v_scan v_match)
          ≠ 0xFFFFFFFFFFFFFFFF) ∧
      (movemask_epi8 (cmpeq_epi8 v_scan v_match) ≠ 0xFFFF →
        ∃ pos, builtin_ctz (not32 (movemask_epi8 (cmpeq_epi8 v_scan v_match))) = some pos ∧
          NEON.windowScan mem scan mtch 16 0 = some (some (scan + pos))) := by
  refine ⟨neon_eq_sse2 mem end_ safe_end _ scan mtch rfl, ?_⟩
  intro la lb hla hlb
  have hna := (loadBytes_some hla).1
  have hnb := (loadBytes_some hlb).1
  refine ⟨?_, ?_⟩
  · rw [ne_eq, ne_eq, sse2_mask_eq_iff hna hnb, neon_lanes_eq_iff hna hnb]
  · intro hmask
    have hab : la ≠ lb := fun h => hmask ((sse2_mask_eq_iff hna hnb).2 h)
    obtain ⟨j, hj, hctz, hd, hbefore⟩ := sse2_ctz_mask hna hnb hab
    exact ⟨j, hctz, windowScan_of_loads hla hlb hj hd hbefore⟩

/-- C15. No room for bulk: when `scan ≤ end` and `safe_end ≤ scan`, each of the three
variants is, on every memory, the byte loop alone, so no 16-byte or 8-byte load is issued;
and with the bytes of `[scan, end)` and their counterparts readable the result is the
smallest `p ≥ scan` such that `p = end` or the byte at `p` differs from its counterpart. -/
theorem no_room_for_bulk (mem : Mem) (scan mtch end_ safe_end : Nat)
    (h1 : scan ≤ end_) (h2 : safe_end ≤ scan) (hr : Readable mem scan mtch end_) :
    (SSE2.GetMatch_SIMD mem scan mtch end_ safe_end = byteLoop mem end_ scan mtch ∧
      NEON.GetMatch_SIMD mem scan mtch end_ safe_end = byteLoop mem end_ scan mtch ∧
      Scalar.GetMatch_SIMD mem scan mtch end_ safe_end = byteLoop mem end_ scan mtch) ∧
    ∃ p, byteLoop mem end_ scan mtch = some p ∧ IsFirstDivergence mem scan mtch end_ p := by
  refine ⟨⟨?_, ?_, ?_⟩, ?_⟩
  · rw [SSE2.GetMatch_SIMD, dif_neg (by omega), loop8, dif_neg (by omega)]
  · rw [NEON.GetMatch_SIMD, dif_neg (by omega), loop8, dif_neg (by omega)]
  · rw [Scalar.GetMatch_SIMD, dif_neg (by omega)]
  · obtain ⟨p, hp⟩ := exists_stopsAt h1 hr
    exact ⟨p, byteLoop_stopsAt _ scan mtch rfl hp, hp.isFirstDivergence⟩

/-- Instance of C15 on the buffer `"abcdefgh" ++ "abcXefgh"`: `scan = 8`, `match = 0`,
`end = 16`, `safe_end = 5`, which lies below `scan`. -/
theorem no_room_for_bulk_witness :
    (8 ≤ 16 ∧ 5 ≤ 8 ∧ Readable (bufMem scenario) 8 0 16) ∧
    ((SSE2.GetMatch_SIMD (bufMem scenario) 8 0 16 5 = byteLoop (bufMem scenario) 16 8 0 ∧
      NEON.GetMatch_SIMD (bufMem scenario) 8 0 16 5 = byteLoop (bufMem scenario) 16 8 0 ∧
      Scalar.GetMatch_SIMD (bufMem scenario) 8 0 16 5 = byteLoop (bufMem scenario) 16 8 0) ∧
    ∃ p, byteLoop (bufMem scenario) 16 8 0 = some p ∧
      IsFirstDivergence (bufMem scenario) 8 0 16 p) :=
  ⟨⟨by decide, by decide, by decide⟩,
    no_room_for_bulk (bufMem scenario) 8 0 16 5 (by decide) (by decide) (by decide)⟩

/-- C16. Counter independence: for every counter state and every name, a
`PROFILE_START(name)` / `PROFILE_END(name)` pair leaves the call count and the elapsed
total of each other name unchanged. -/
theorem counter_independence (name other : Name) (c : Counters) (s e : Nat)
    (h : other ≠ name) :
    (profilePair name c (s, e)).calls other = c.calls other ∧
    (profilePair name c (s, e)).time_us other = c.time_us other := by
  cases name <;> cases other <;> first
    | exact absurd rfl h
    | exact ⟨rfl, rfl⟩

/-- Instance of C16: a pair on `getmatch` with readings 10 and 25 leaves the `hash`
counters at 5 calls and 6 microseconds. -/
theorem counter_independence_witness :
    Name.hash ≠ Name.getmatch ∧
    ((profilePair Name.getmatch ⟨1, 2, 3, 4, 5, 6⟩ (10, 25)).calls Name.hash
        = (Counters.mk 1 2 3 4 5 6).calls Name.hash ∧
      (profilePair Name.getmatch ⟨1, 2, 3, 4, 5, 6⟩ (10, 25)).time_us Name.hash
        = (Counters.mk 1 2 3 4 5 6).time_us Name.hash) :=
  ⟨by decide,
    counter_independence Name.getmatch Name.hash ⟨1, 2, 3, 4, 5, 6⟩ 10 25 (by decide)⟩

/-- C17. Scalar variant under the tighter bound: when `scan ≤ end`, `safe_end + 7 ≤ end`
and the bytes of `[scan, end)` and their counterparts are readable, the scalar variant
returns the smallest `p ≥ scan` such that `p = end` or the byte at `p` differs from its
counterpart, and the SSE2 and NEON variants return that same position. -/
theorem scalar_tighter_bound (mem : Mem) (scan mtch end_ safe_end : Nat)
    (h1 : scan ≤ end_) (h2 : safe_end + 7 ≤ end_) (hr : Readable mem scan mtch end_) :
    ∃ p, Scalar.GetMatch_SIMD mem scan mtch end_ safe_end = some p ∧
      IsFirstDivergence mem scan mtch end_ p ∧
      SSE2.GetMatch_SIMD mem scan mtch end_ safe_end = some p ∧
      NEON.GetMatch_SIMD mem scan mtch end_ safe_end = some p := by
  obtain ⟨p, hp⟩ := exists_stopsAt h1 hr
  have hfit : WordsFit scan end_ safe_end := fun j _ hj => by omega
  exact ⟨p, scalar_getMatch_of_wordsFit hfit hr hp, hp.isFirstDivergence,
    sse2_getMatch_of_readable (by omega) hr hp, neon_getMatch_of_readable (by omega) hr hp⟩

/-- Instance of C17 with `safe_end = end - 8`: `scan = 40`, `match = 0`, `end = 80`,
`safe_end = 72`, differing byte at address 75. -/
theorem scalar_tighter_bound_witness :
    (40 ≤ 80 ∧ 72 + 7 ≤ 80 ∧ Readable (spikeMem 75) 40 0 80) ∧
    ∃ p, Scalar.GetMatch_SIMD (spikeMem 75) 40 0 80 72 = some p ∧
      IsFirstDivergence (spikeMem 75) 40 0 80 p ∧
      SSE2.GetMatch_SIMD (spikeMem 75) 40 0 80 72 = some p ∧
      NEON.GetMatch_SIMD (spikeMem 75) 40 0 80 72 = some p :=
  ⟨⟨by decide, by decide, by decide⟩,
    scalar_tighter_bound (spikeMem 75) 40 0 80 72 (by decide) (by decide) (by decide)⟩

end Zopfli
